import Mathlib

/-!
# Verification of the cctop session engine (Go sources)

A shallow embedding of the session discovery, fusion and state-inference
engine of `cctop` (packages `internal/session` and its callers), together
with proofs of the specification claims.

Modelling conventions:
* Go strings are modelled as `List Char` (sequences of runes).  Byte-level
  quantities (for example `len` on a UTF-8 string) are modelled with
  `Char.utf8Size` where the source uses byte lengths.
* Go `time.Duration` values are `Int` nanoseconds; `time.Time` values are
  `Int` nanoseconds since the epoch.
* File-system and process-table reads, JSON decoding and time formatting
  are external effects; they enter the embedding as explicit parameters
  (`fs : String path ↦ Option contents`, `parse : line ↦ Option JsonlLine`,
  `alive : pid ↦ Bool`, ...).  A `none` result models a read or decode
  failure, exactly as the Go code treats an `err != nil` result.
* Loops that walk a structure by arbitrary strides are written with an
  explicit fuel argument so that they are structurally recursive and
  kernel-computable; the fuel is always instantiated with a bound that the
  Go loop can never exceed, and lemmas discharge the bound.
-/

namespace Cctop

/-- Go `unicode.IsSpace`: the white-space runes recognised by the Go
standard library (Latin-1 range plus the Unicode space separators). -/
def goIsSpace (c : Char) : Bool :=
  c = ' ' || c = '\t' || c = '\n' || c = '\u000b' || c = '\u000c' || c = '\r' ||
  c = '\u0085' || c = '\u00a0' || c = '\u1680' ||
  ('\u2000' ≤ c && c ≤ '\u200a') ||
  c = '\u2028' || c = '\u2029' || c = '\u202f' || c = '\u205f' || c = '\u3000'

/-- Go `strings.TrimSpace` on rune lists. -/
def trimSpace (l : List Char) : List Char :=
  ((l.dropWhile goIsSpace).reverse.dropWhile goIsSpace).reverse

/-- Go `strings.Split(s, sep)` for a single-rune separator. -/
def splitOnChar (c : Char) : List Char → List (List Char)
  | [] => [[]]
  | x :: xs =>
    if x = c then [] :: splitOnChar c xs
    else
      match splitOnChar c xs with
      | [] => [[x]]
      | g :: gs => (x :: g) :: gs

/-- Split a rune list around the first occurrence of `needle`
(Go `strings.Index` plus slicing): returns the part strictly before the
first occurrence and the part strictly after it. -/
def splitFirstOccur (needle : List Char) : List Char → Option (List Char × List Char)
  | [] => if needle.isPrefixOf [] then some ([], []) else none
  | c :: rest =>
    if needle.isPrefixOf (c :: rest) then some ([], (c :: rest).drop needle.length)
    else
      match splitFirstOccur needle rest with
      | some (b, a) => some (c :: b, a)
      | none => none

/-- Go `strings.Contains`. -/
def containsSub (needle l : List Char) : Bool :=
  (splitFirstOccur needle l).isSome

/-- Accumulator worker for `goFields`. -/
def fieldsAux : List Char → List Char → List (List Char)
  | [], acc => if acc.isEmpty then [] else [acc.reverse]
  | c :: rest, acc =>
    if goIsSpace c then
      if acc.isEmpty then fieldsAux rest []
      else acc.reverse :: fieldsAux rest []
    else fieldsAux rest (c :: acc)

/-- Go `strings.Fields`: split around runs of white space, dropping
empty fields. -/
def goFields (l : List Char) : List (List Char) :=
  fieldsAux l []

/-- Go `strings.Join(parts, sep)`. -/
def joinWith (sep : List Char) : List (List Char) → List Char
  | [] => []
  | [x] => x
  | x :: y :: rest => x ++ sep ++ joinWith sep (y :: rest)

/-- Decimal value of a digit-rune list. -/
def digitsToNat (l : List Char) : Nat :=
  l.foldl (fun a c => a * 10 + (c.toNat - 48)) 0

/-- `l` is a non-empty list of decimal digit runes. -/
def isDigits (l : List Char) : Bool :=
  !l.isEmpty && l.all (fun c => c.isDigit)

/-- Digit-run part of Go `strconv.Atoi`. -/
def atoiDigits (l : List Char) : Option Int :=
  if isDigits l then some (digitsToNat l : Int) else none

/-- Go `strconv.Atoi` (overflow checking elided: all inputs in this
program are far below the `int64` range). `none` models `err != nil`. -/
def Atoi (s : List Char) : Option Int :=
  match s with
  | [] => none
  | c :: rest =>
    if c = '-' then (atoiDigits rest).map (fun n => -n)
    else if c = '+' then atoiDigits rest
    else atoiDigits s

/-- One second of Go `time.Duration`, in nanoseconds. -/
def timeSecond : Int := 1000000000

/-- `ParseEtime` (src/unnamed/part_002): parses the `ps` etime format
(`DD-HH:MM:SS`, `HH:MM:SS`, `MM:SS`, or `SS`) into a duration
(nanoseconds). Failed `Atoi` calls leave the corresponding component 0,
exactly as the Go code discards the error. -/
def ParseEtime (etime : List Char) : Int :=
  let etime := trimSpace etime
  let dayssplit :=
    match splitFirstOccur [ '-' ] etime with
    | some (before, after) =>
      ((match Atoi before with
        | some d => d
        | none => 0), after)
    | none => (0, etime)
  let days := dayssplit.1
  let parts := splitOnChar ':' dayssplit.2
  let hms :=
    match parts with
    | [p0, p1, p2] => ((Atoi p0).getD 0, (Atoi p1).getD 0, (Atoi p2).getD 0)
    | [p0, p1] => (0, (Atoi p0).getD 0, (Atoi p1).getD 0)
    | [p0] => (0, 0, (Atoi p0).getD 0)
    | _ => (0, 0, 0)
  let totalSeconds := days * 86400 + hms.1 * 3600 + hms.2.1 * 60 + hms.2.2
  totalSeconds * timeSecond

/-- The four supported etime shapes, with their digit components. -/
inductive EtimeShape
  | ss (s : List Char)
  | mmss (m s : List Char)
  | hhmmss (h m s : List Char)
  | dhhmmss (d h m s : List Char)

/-- All components of the shape are non-empty digit strings. -/
def EtimeShape.valid : EtimeShape → Bool
  | .ss s => isDigits s
  | .mmss m s => isDigits m && isDigits s
  | .hhmmss h m s => isDigits h && isDigits m && isDigits s
  | .dhhmmss d h m s => isDigits d && isDigits h && isDigits m && isDigits s

/-- Render the shape as the textual etime field. -/
def EtimeShape.render : EtimeShape → List Char
  | .ss s => s
  | .mmss m s => m ++ ':' :: s
  | .hhmmss h m s => h ++ ':' :: m ++ ':' :: s
  | .dhhmmss d h m s => d ++ '-' :: h ++ ':' :: m ++ ':' :: s

/-- The exact number of seconds denoted by the shape. -/
def EtimeShape.seconds : EtimeShape → Int
  | .ss s => (digitsToNat s : Int)
  | .mmss m s => (digitsToNat m : Int) * 60 + (digitsToNat s : Int)
  | .hhmmss h m s =>
    (digitsToNat h : Int) * 3600 + (digitsToNat m : Int) * 60 + (digitsToNat s : Int)
  | .dhhmmss d h m s =>
    (digitsToNat d : Int) * 86400 + (digitsToNat h : Int) * 3600 +
      (digitsToNat m : Int) * 60 + (digitsToNat s : Int)


theorem digit_not_space {c : Char} (h : c.isDigit = true) : goIsSpace c = false := by
  have hd : 48 ≤ c.toNat ∧ c.toNat ≤ 57 := by
    simp only [Char.isDigit, Bool.and_eq_true, decide_eq_true_eq] at h
    obtain ⟨h1, h2⟩ := h
    exact ⟨by exact_mod_cast h1, by exact_mod_cast h2⟩
  have h10 : c.toNat = 48 ∨ c.toNat = 49 ∨ c.toNat = 50 ∨ c.toNat = 51 ∨ c.toNat = 52 ∨
      c.toNat = 53 ∨ c.toNat = 54 ∨ c.toNat = 55 ∨ c.toNat = 56 ∨ c.toNat = 57 := by omega
  rcases h10 with h|h|h|h|h|h|h|h|h|h <;>
    (rw [← Char.ofNat_toNat c, h]; decide)

theorem dropWhile_append_all {p : Char → Bool} {ws : List Char} (l : List Char)
    (h : ws.all p = true) : (ws ++ l).dropWhile p = l.dropWhile p := by
  induction ws with
  | nil => rfl
  | cons c cs ih =>
    simp only [List.all_cons, Bool.and_eq_true] at h
    simp [List.dropWhile_cons, h.1, ih h.2]

theorem dropWhile_cons_false {p : Char → Bool} {c : Char} (h : p c = false) (l : List Char) :
    (c :: l).dropWhile p = c :: l := by
  simp [List.dropWhile_cons, h]

theorem trimSpace_append_clean {ws r : List Char} (hws : ws.all goIsSpace = true)
    (h1 : ∃ c l, r = c :: l ∧ goIsSpace c = false)
    (h2 : ∃ c l, r.reverse = c :: l ∧ goIsSpace c = false) :
    trimSpace (ws ++ r) = r := by
  obtain ⟨c, l, hr, hc⟩ := h1
  obtain ⟨c2, l2, hr2, hc2⟩ := h2
  unfold trimSpace
  rw [dropWhile_append_all _ hws, hr, dropWhile_cons_false hc, ← hr, hr2,
    dropWhile_cons_false hc2, ← hr2, List.reverse_reverse]

theorem splitFirstOccur_single_not_mem {c : Char} {l : List Char} (h : c ∉ l) :
    splitFirstOccur [ c ] l = none := by
  induction l with
  | nil => simp [splitFirstOccur, List.isPrefixOf]
  | cons x xs ih =>
    simp only [List.mem_cons, not_or] at h
    unfold splitFirstOccur
    have hpre : ([ c ].isPrefixOf (x :: xs)) = false := by
      simp [List.isPrefixOf]
      exact fun hcx => h.1 hcx
    rw [hpre]
    simp only [Bool.false_eq_true, if_false]
    rw [ih h.2]

theorem splitFirstOccur_single_append {c : Char} {a : List Char} (b : List Char) (h : c ∉ a) :
    splitFirstOccur [ c ] (a ++ c :: b) = some (a, b) := by
  induction a with
  | nil =>
    unfold splitFirstOccur
    simp [List.isPrefixOf]
  | cons x xs ih =>
    simp only [List.mem_cons, not_or] at h
    unfold splitFirstOccur
    have hpre : ([ c ].isPrefixOf (x :: (xs ++ c :: b))) = false := by
      simp [List.isPrefixOf]
      exact fun hcx => h.1 hcx
    simp only [List.cons_append, hpre, Bool.false_eq_true, if_false]
    rw [ih h.2]

theorem splitOnChar_ne_nil (c : Char) (l : List Char) : splitOnChar c l ≠ [] := by
  induction l with
  | nil => simp [splitOnChar]
  | cons x xs ih =>
    unfold splitOnChar
    by_cases hx : x = c
    · simp [hx]
    · simp only [hx, if_false]
      cases hsp : splitOnChar c xs with
      | nil => exact absurd hsp ih
      | cons g gs => simp

theorem splitOnChar_cons_of_ne {c x : Char} {l : List Char} (h : ¬ x = c)
    {g : List Char} {gs : List (List Char)} (hsp : splitOnChar c l = g :: gs) :
    splitOnChar c (x :: l) = (x :: g) :: gs := by
  conv_lhs => unfold splitOnChar
  simp only [h, if_false]
  rw [hsp]

theorem splitOnChar_not_mem {c : Char} {l : List Char} (h : c ∉ l) :
    splitOnChar c l = [l] := by
  induction l with
  | nil => rfl
  | cons x xs ih =>
    simp only [List.mem_cons, not_or] at h
    have hx : ¬ x = c := fun hh => h.1 hh.symm
    rw [splitOnChar_cons_of_ne hx (ih h.2)]

theorem splitOnChar_cons_append {c : Char} {a : List Char} (b : List Char) (h : c ∉ a) :
    splitOnChar c (a ++ c :: b) = a :: splitOnChar c b := by
  induction a with
  | nil => simp [splitOnChar]
  | cons x xs ih =>
    simp only [List.mem_cons, not_or] at h
    have hx : ¬ x = c := fun hh => h.1 hh.symm
    cases hsp : splitOnChar c (xs ++ c :: b) with
    | nil => exact absurd hsp (splitOnChar_ne_nil c _)
    | cons g gs =>
      rw [List.cons_append, splitOnChar_cons_of_ne hx hsp]
      rw [ih h.2] at hsp
      cases hsp
      rfl

theorem isDigits_parts {x : List Char} (h : isDigits x = true) :
    x ≠ [] ∧ ∀ c ∈ x, c.isDigit = true := by
  simp only [isDigits, Bool.and_eq_true, Bool.not_eq_true', List.all_eq_true] at h
  refine ⟨?_, h.2⟩
  cases x with
  | nil => simp at h
  | cons c t => simp


theorem Atoi_isDigits {l : List Char} (h : isDigits l = true) :
    Atoi l = some (digitsToNat l : Int) := by
  obtain ⟨hne, hall⟩ := isDigits_parts h
  cases l with
  | nil => exact absurd rfl hne
  | cons c rest =>
    have hc : c.isDigit = true := hall c (by simp)
    have hcm : ¬ c = '-' := by rintro rfl; simp at hc
    have hcp : ¬ c = '+' := by rintro rfl; simp at hc
    unfold Atoi
    simp only [hcm, hcp, if_false, atoiDigits, h, if_true]

theorem isDigits_head {x : List Char} (h : isDigits x = true) :
    ∃ c t, x = c :: t ∧ c.isDigit = true := by
  obtain ⟨hne, hall⟩ := isDigits_parts h
  cases x with
  | nil => exact absurd rfl hne
  | cons c t => exact ⟨c, t, rfl, hall c (by simp)⟩

theorem isDigits_rev_head {a x : List Char} (h : isDigits x = true) :
    ∃ c t, (a ++ x).reverse = c :: t ∧ c.isDigit = true := by
  obtain ⟨hne, hall⟩ := isDigits_parts h
  cases hrev : x.reverse with
  | nil => exact absurd (List.reverse_eq_nil_iff.mp hrev) hne
  | cons c t =>
    refine ⟨c, t ++ a.reverse, ?_, ?_⟩
    · rw [List.reverse_append, hrev, List.cons_append]
    · have : c ∈ x.reverse := by rw [hrev]; simp
      exact hall c (List.mem_reverse.mp this)

theorem not_mem_of_isDigits {x : List Char} {c : Char} (hx : isDigits x = true)
    (hc : c.isDigit = false) : c ∉ x := fun hmem =>
  absurd ((isDigits_parts hx).2 c hmem) (by simp [hc])

/-- C6: for every elapsed-time string in one of the four supported shapes
`SS`, `MM:SS`, `HH:MM:SS` or `D-HH:MM:SS` (non-empty digit components),
possibly with leading whitespace, `ParseEtime` returns exactly
`days*86400 + hours*3600 + minutes*60 + seconds` seconds. -/
theorem ParseEtime_supported_shapes (ws : List Char) (sh : EtimeShape)
    (hws : ws.all goIsSpace = true) (hv : sh.valid = true) :
    ParseEtime (ws ++ sh.render) = sh.seconds * timeSecond := by
  have hcolon : (':' : Char).isDigit = false := by decide
  have hdash : ('-' : Char).isDigit = false := by decide
  cases sh with
  | ss s =>
    simp only [EtimeShape.valid] at hv
    obtain ⟨c, t, hceq, hcd⟩ := isDigits_head hv
    obtain ⟨c2, t2, hc2eq, hc2d⟩ := isDigits_rev_head (a := []) hv
    have htrim : trimSpace (ws ++ s) = s :=
      trimSpace_append_clean hws ⟨c, t, hceq, digit_not_space hcd⟩
        ⟨c2, t2, by simpa using hc2eq, digit_not_space hc2d⟩
    have hnd : splitFirstOccur [ '-' ] s = none :=
      splitFirstOccur_single_not_mem (not_mem_of_isDigits hv hdash)
    have hsp : splitOnChar ':' s = [s] :=
      splitOnChar_not_mem (not_mem_of_isDigits hv hcolon)
    simp only [ParseEtime, EtimeShape.render, htrim, hnd, hsp, Atoi_isDigits hv,
      Option.getD_some, EtimeShape.seconds]
    ring
  | mmss m s =>
    simp only [EtimeShape.valid, Bool.and_eq_true] at hv
    obtain ⟨hm, hs⟩ := hv
    obtain ⟨c, t, hceq, hcd⟩ := isDigits_head hm
    obtain ⟨c2, t2, hc2eq, hc2d⟩ := isDigits_rev_head (a := m ++ [':']) hs
    have hr : m ++ ':' :: s = (m ++ [':']) ++ s := by simp
    have htrim : trimSpace (ws ++ (m ++ ':' :: s)) = m ++ ':' :: s := by
      rw [hr]
      exact trimSpace_append_clean hws
        ⟨c, t ++ [':'] ++ s, by rw [hceq]; simp, digit_not_space hcd⟩
        ⟨c2, t2, hc2eq, digit_not_space hc2d⟩
    have hnd : splitFirstOccur [ '-' ] (m ++ ':' :: s) = none := by
      refine splitFirstOccur_single_not_mem ?_
      simp only [List.mem_append, List.mem_cons, not_or]
      exact ⟨not_mem_of_isDigits hm hdash, by decide, not_mem_of_isDigits hs hdash⟩
    have hsp : splitOnChar ':' (m ++ ':' :: s) = [m, s] := by
      rw [splitOnChar_cons_append _ (not_mem_of_isDigits hm hcolon),
        splitOnChar_not_mem (not_mem_of_isDigits hs hcolon)]
    simp only [ParseEtime, EtimeShape.render, htrim, hnd, hsp, Atoi_isDigits hm,
      Atoi_isDigits hs, Option.getD_some, EtimeShape.seconds]
    ring
  | hhmmss hh m s =>
    simp only [EtimeShape.valid, Bool.and_eq_true] at hv
    obtain ⟨⟨hh1, hm⟩, hs⟩ := hv
    obtain ⟨c, t, hceq, hcd⟩ := isDigits_head hh1
    obtain ⟨c2, t2, hc2eq, hc2d⟩ := isDigits_rev_head (a := hh ++ ':' :: m ++ [':']) hs
    have htrim : trimSpace (ws ++ (hh ++ ':' :: m ++ ':' :: s)) = hh ++ ':' :: m ++ ':' :: s := by
      have hr : hh ++ ':' :: m ++ ':' :: s = (hh ++ ':' :: m ++ [':']) ++ s := by simp
      rw [hr]
      exact trimSpace_append_clean hws
        ⟨c, (t ++ ':' :: m ++ [':']) ++ s, by rw [hceq]; simp, digit_not_space hcd⟩
        ⟨c2, t2, hc2eq, digit_not_space hc2d⟩
    have hnd : splitFirstOccur [ '-' ] (hh ++ ':' :: m ++ ':' :: s) = none := by
      refine splitFirstOccur_single_not_mem ?_
      simp only [List.mem_append, List.mem_cons, not_or]
      exact ⟨⟨not_mem_of_isDigits hh1 hdash, by decide, not_mem_of_isDigits hm hdash⟩,
        by decide, not_mem_of_isDigits hs hdash⟩
    have hsp : splitOnChar ':' (hh ++ ':' :: m ++ ':' :: s) = [hh, m, s] := by
      have h2 : splitOnChar ':' (m ++ ':' :: s) = [m, s] := by
        rw [splitOnChar_cons_append _ (not_mem_of_isDigits hm hcolon),
          splitOnChar_not_mem (not_mem_of_isDigits hs hcolon)]
      have h3 : hh ++ ':' :: m ++ ':' :: s = hh ++ ':' :: (m ++ ':' :: s) := by simp
      rw [h3, splitOnChar_cons_append _ (not_mem_of_isDigits hh1 hcolon), h2]
    simp only [ParseEtime, EtimeShape.render, htrim, hnd, hsp, Atoi_isDigits hh1,
      Atoi_isDigits hm, Atoi_isDigits hs, Option.getD_some, EtimeShape.seconds]
    ring
  | dhhmmss d hh m s =>
    simp only [EtimeShape.valid, Bool.and_eq_true] at hv
    obtain ⟨⟨⟨hd1, hh1⟩, hm⟩, hs⟩ := hv
    obtain ⟨c, t, hceq, hcd⟩ := isDigits_head hd1
    obtain ⟨c2, t2, hc2eq, hc2d⟩ := isDigits_rev_head (a := d ++ '-' :: hh ++ ':' :: m ++ [':']) hs
    have htrim : trimSpace (ws ++ (d ++ '-' :: hh ++ ':' :: m ++ ':' :: s))
        = d ++ '-' :: hh ++ ':' :: m ++ ':' :: s := by
      have hr : d ++ '-' :: hh ++ ':' :: m ++ ':' :: s
          = (d ++ '-' :: hh ++ ':' :: m ++ [':']) ++ s := by simp
      rw [hr]
      exact trimSpace_append_clean hws
        ⟨c, (t ++ '-' :: hh ++ ':' :: m ++ [':']) ++ s, by rw [hceq]; simp, digit_not_space hcd⟩
        ⟨c2, t2, hc2eq, digit_not_space hc2d⟩
    have hnd : splitFirstOccur [ '-' ] (d ++ '-' :: hh ++ ':' :: m ++ ':' :: s)
        = some (d, hh ++ ':' :: m ++ ':' :: s) := by
      have h3 : d ++ '-' :: hh ++ ':' :: m ++ ':' :: s
          = d ++ '-' :: (hh ++ ':' :: m ++ ':' :: s) := by simp
      rw [h3]
      exact splitFirstOccur_single_append _ (not_mem_of_isDigits hd1 hdash)
    have hsp : splitOnChar ':' (hh ++ ':' :: m ++ ':' :: s) = [hh, m, s] := by
      have h2 : splitOnChar ':' (m ++ ':' :: s) = [m, s] := by
        rw [splitOnChar_cons_append _ (not_mem_of_isDigits hm hcolon),
          splitOnChar_not_mem (not_mem_of_isDigits hs hcolon)]
      have h3 : hh ++ ':' :: m ++ ':' :: s = hh ++ ':' :: (m ++ ':' :: s) := by simp
      rw [h3, splitOnChar_cons_append _ (not_mem_of_isDigits hh1 hcolon), h2]
    simp only [ParseEtime, EtimeShape.render, htrim, hnd, hsp, Atoi_isDigits hd1,
      Atoi_isDigits hh1, Atoi_isDigits hm, Atoi_isDigits hs, Option.getD_some,
      EtimeShape.seconds]

/-- Witness for C6 at the spec's own examples. -/
theorem ParseEtime_supported_shapes_witness :
    ParseEtime ("1-00:00:00".data) = 86400 * timeSecond := by
  have h := ParseEtime_supported_shapes [] (.dhhmmss "1".data "00".data "00".data "00".data)
    (by decide) (by decide)
  simpa [EtimeShape.seconds, digitsToNat] using h


/-- Path-indexed file-system model: `none` is a file that cannot be opened
or statted (nonexistent, unreadable, raced away), `some data` is the file's
contents as a rune list. -/
def FileSystem : Type := String → Option (List Char)

/-- Go `strings.TrimRight(s, "\n")`: remove every trailing newline. -/
def trimNewlines (l : List Char) : List Char :=
  (l.reverse.dropWhile (fun c => c == '\n')).reverse

/-- `strings.LastIndexByte(content, '\n')` plus the `content[lastNewline+1:]`
slice: the part of `l` strictly after its last newline, when one exists. -/
def afterLastNewline (l : List Char) : Option (List Char) :=
  if '\n' ∈ l then some ((l.reverse.takeWhile (fun c => !(c == '\n'))).reverse) else none

/-- The backward 4096-byte-chunk loop of `ReadLastLine`
(src/internal/session/metadata.go).  `offset` and `buf` are the Go loop
variables; `fuel` only bounds the iteration count so that the recursion is
structural (each iteration lowers `offset` by `min 4096 offset ≥ 1`, so
`fuel := offset` at the call site can never be exhausted). -/
def readLastLineLoop (data : List Char) : Nat → Nat → List Char → List Char
  | 0, _, buf => trimNewlines buf
  | fuel + 1, offset, buf =>
    if offset = 0 then trimNewlines buf
    else
      let readSize := min 4096 offset
      let offset2 := offset - readSize
      let chunk := (data.drop offset2).take readSize
      let buf2 := chunk ++ buf
      let content := trimNewlines buf2
      match afterLastNewline content with
      | some rest => rest
      | none => readLastLineLoop data fuel offset2 buf2

/-- `ReadLastLine` (src/internal/session/metadata.go): read the last
non-empty line of a file by seeking backward from the end in 4096-byte
chunks.  An unopenable/unstattable file or a size-0 file yields `[]`. -/
def ReadLastLine (fs : FileSystem) (filePath : String) : List Char :=
  match fs filePath with
  | none => []
  | some data =>
    if data.length = 0 then []
    else readLastLineLoop data data.length data.length []

/-- Denotation of the backward scan: trim every trailing newline, then take
what follows the last remaining newline (the last non-empty line). -/
def lastNonemptyLine (data : List Char) : List Char :=
  ((trimNewlines data).reverse.takeWhile (fun c => !(c == '\n'))).reverse

/-- C5's literal reading: empty file ↦ empty; no newline ↦ whole content;
otherwise the last line after trimming a SINGLE trailing newline. -/
def readLastLineClaimed (data : List Char) : List Char :=
  if data = [] then []
  else if '\n' ∉ data then data
  else
    let t := if data.getLast? = some '\n' then data.dropLast else data
    (t.reverse.takeWhile (fun c => !(c == '\n'))).reverse

theorem dropWhile_append_ne_nil {p : Char → Bool} {x : List Char} (y : List Char)
    (h : x.dropWhile p ≠ []) : (x ++ y).dropWhile p = x.dropWhile p ++ y := by
  induction x with
  | nil => exact absurd rfl h
  | cons c cs ih =>
    by_cases hc : p c = true
    · rw [List.dropWhile_cons_of_pos hc] at h
      simp only [List.cons_append, List.dropWhile_cons_of_pos hc, ih h]
    · have hc' : p c = false := by simpa using hc
      simp [List.dropWhile_cons_of_neg, hc']

theorem takeWhile_append_stop {q : Char → Bool} {u : List Char} (y : List Char)
    (h : ∃ c ∈ u, q c = false) : (u ++ y).takeWhile q = u.takeWhile q := by
  induction u with
  | nil => obtain ⟨c, hc, _⟩ := h; exact absurd hc (by simp)
  | cons c cs ih =>
    by_cases hc : q c = true
    · simp only [List.cons_append, List.takeWhile_cons_of_pos hc]
      obtain ⟨d, hd, hdq⟩ := h
      rcases List.mem_cons.mp hd with rfl | hd2
      · rw [hc] at hdq; cases hdq
      · rw [ih ⟨d, hd2, hdq⟩]
    · have hc' : q c = false := by simpa using hc
      simp [List.takeWhile_cons_of_neg, hc']

theorem takeWhile_eq_self_of_all {q : Char → Bool} {u : List Char}
    (h : ∀ c ∈ u, q c = true) : u.takeWhile q = u := by
  induction u with
  | nil => rfl
  | cons c cs ih =>
    rw [List.takeWhile_cons_of_pos (h c (by simp))]
    rw [ih (fun d hd => h d (by simp [hd]))]

theorem lastNonemptyLine_no_newline {data : List Char}
    (h : '\n' ∉ trimNewlines data) : lastNonemptyLine data = trimNewlines data := by
  unfold lastNonemptyLine
  rw [takeWhile_eq_self_of_all, List.reverse_reverse]
  intro c hc
  have : c ∈ trimNewlines data := List.mem_reverse.mp hc
  simp only [Bool.not_eq_true']
  by_cases hcn : c = '\n'
  · exact absurd (hcn ▸ this) h
  · simpa using hcn

theorem lastNonemptyLine_suffix {a b : List Char} (h : '\n' ∈ trimNewlines b) :
    lastNonemptyLine b = lastNonemptyLine (a ++ b) := by
  have hrev : (trimNewlines b).reverse = b.reverse.dropWhile (fun c => c == '\n') := by
    simp [trimNewlines]
  have hrev2 : (trimNewlines (a ++ b)).reverse
      = (a ++ b).reverse.dropWhile (fun c => c == '\n') := by
    simp [trimNewlines]
  have hne : b.reverse.dropWhile (fun c => c == '\n') ≠ [] := by
    intro hcon
    rw [← hrev] at hcon
    have hb : trimNewlines b = [] := by simpa using congrArg List.reverse hcon
    rw [hb] at h
    simp at h
  have hmem : '\n' ∈ b.reverse.dropWhile (fun c => c == '\n') := by
    rw [← hrev]
    exact List.mem_reverse.mpr h
  unfold lastNonemptyLine
  rw [hrev, hrev2, List.reverse_append, dropWhile_append_ne_nil _ hne,
    takeWhile_append_stop _ ⟨'\n', hmem, by simp⟩]


theorem afterLastNewline_some {l r : List Char} (h : afterLastNewline l = some r) :
    '\n' ∈ l ∧ r = (l.reverse.takeWhile (fun c => !(c == '\n'))).reverse := by
  unfold afterLastNewline at h
  by_cases hm : '\n' ∈ l
  · simp only [hm, if_true, Option.some.injEq] at h
    exact ⟨hm, h.symm⟩
  · simp [hm] at h

theorem afterLastNewline_none {l : List Char} (h : afterLastNewline l = none) :
    '\n' ∉ l := by
  unfold afterLastNewline at h
  by_cases hm : '\n' ∈ l
  · simp [hm] at h
  · exact hm

theorem readLastLineLoop_zero (data buf : List Char) (fuel : Nat) :
    readLastLineLoop data fuel 0 buf = trimNewlines buf := by
  cases fuel <;> simp [readLastLineLoop]

theorem drop_take_append_drop (data : List Char) (offset2 readSize : Nat) :
    (data.drop offset2).take readSize ++ data.drop (offset2 + readSize) = data.drop offset2 := by
  rw [show data.drop (offset2 + readSize) = (data.drop offset2).drop readSize by
    rw [List.drop_drop]]
  exact List.take_append_drop readSize (data.drop offset2)

theorem drop_take_append_sub (data : List Char) (offset rs : Nat) (h : rs ≤ offset) :
    (data.drop (offset - rs)).take rs ++ data.drop offset = data.drop (offset - rs) := by
  obtain ⟨o2, rfl⟩ : ∃ o2, offset = o2 + rs := ⟨offset - rs, by omega⟩
  rw [Nat.add_sub_cancel]
  exact drop_take_append_drop data o2 rs

theorem readLastLineLoop_eq (data : List Char) :
    ∀ fuel offset, offset ≤ fuel → offset ≤ data.length → 1 ≤ offset →
      readLastLineLoop data fuel offset (data.drop offset) = lastNonemptyLine data := by
  intro fuel
  induction fuel with
  | zero => intro offset h1 _ h3; omega
  | succ fuel ih =>
    intro offset hle hlen hpos
    have hoff : ¬ offset = 0 := by omega
    rw [readLastLineLoop]
    simp only [hoff, if_false]
    have hbuf : (data.drop (offset - min 4096 offset)).take (min 4096 offset)
        ++ data.drop offset = data.drop (offset - min 4096 offset) :=
      drop_take_append_sub data offset (min 4096 offset) (Nat.min_le_right 4096 offset)
    rw [hbuf]
    cases hmatch : afterLastNewline (trimNewlines (data.drop (offset - min 4096 offset))) with
    | some rest =>
      obtain ⟨hmem, hrest⟩ := afterLastNewline_some hmatch
      have hsplit : data.take (offset - min 4096 offset)
          ++ data.drop (offset - min 4096 offset) = data :=
        List.take_append_drop _ data
      calc rest = lastNonemptyLine (data.drop (offset - min 4096 offset)) := hrest
        _ = lastNonemptyLine (data.take (offset - min 4096 offset)
              ++ data.drop (offset - min 4096 offset)) := lastNonemptyLine_suffix hmem
        _ = lastNonemptyLine data := by rw [hsplit]
    | none =>
      have hnomem := afterLastNewline_none hmatch
      by_cases hz : offset - min 4096 offset = 0
      · rw [hz, readLastLineLoop_zero]
        rw [hz] at hnomem
        simp only [List.drop_zero] at hnomem ⊢
        exact (lastNonemptyLine_no_newline hnomem).symm
      · exact ih (offset - min 4096 offset) (by omega) (by omega) (by omega)

theorem ReadLastLine_eq (fs : FileSystem) (p : String) :
    ReadLastLine fs p = (match fs p with
      | none => []
      | some data => lastNonemptyLine data) := by
  unfold ReadLastLine
  cases hfs : fs p with
  | none => rfl
  | some data =>
    by_cases hlen : data.length = 0
    · have : data = [] := List.length_eq_zero.mp hlen
      subst this
      simp [lastNonemptyLine, trimNewlines]
    · simp only [hlen, if_false]
      have : data.drop data.length = [] := by simp
      rw [← this]
      exact readLastLineLoop_eq data data.length data.length le_rfl le_rfl (by omega)


/-- C5 (amended): `ReadLastLine` maps an unreadable or empty file to the
empty string; a file with no newline to its entire content; and any other
file to its last non-empty line — the content after the last newline once
ALL trailing newlines are trimmed — so a newline never appears in the
result.  (The original claim's single-newline trim is refuted by
`ReadLastLine_counterexample`.) -/
theorem ReadLastLine_amended (fs : FileSystem) (p : String) :
    ReadLastLine fs p = (match fs p with
        | none => []
        | some data => lastNonemptyLine data) ∧
    '\n' ∉ ReadLastLine fs p ∧
    (fs p = some [] → ReadLastLine fs p = []) ∧
    (∀ data, fs p = some data → '\n' ∉ data → ReadLastLine fs p = data) := by
  have htrim_self : ∀ data : List Char, '\n' ∉ data → trimNewlines data = data := by
    intro data hnl
    cases hrev : data.reverse with
    | nil =>
      rw [List.reverse_eq_nil_iff.mp hrev]
      rfl
    | cons c cs =>
      have hcmem : c ∈ data := List.mem_reverse.mp (by rw [hrev]; simp)
      have hc : (c == '\n') = false := by
        simp only [beq_eq_false_iff_ne, ne_eq]
        rintro rfl
        exact hnl hcmem
      unfold trimNewlines
      rw [hrev, List.dropWhile_cons_of_neg (by simp [hc]), ← hrev, List.reverse_reverse]
  refine ⟨ReadLastLine_eq fs p, ?_, ?_, ?_⟩
  · rw [ReadLastLine_eq]
    cases hfs : fs p with
    | none => simp
    | some data =>
      simp only
      intro hmem
      unfold lastNonemptyLine at hmem
      have hmem2 := List.mem_reverse.mp hmem
      have hq := List.mem_takeWhile_imp hmem2
      simp at hq
  · intro hfs
    rw [ReadLastLine_eq, hfs]
    rfl
  · intro data hfs hnl
    rw [ReadLastLine_eq, hfs]
    simp only
    have ht := htrim_self data hnl
    rw [lastNonemptyLine_no_newline (by rw [ht]; exact hnl), ht]

/-- Witness for C5 (amended) at a single-line file. -/
theorem ReadLastLine_amended_witness :
    ReadLastLine (fun _ => some ("abc".data)) ("f") = "abc".data :=
  (ReadLastLine_amended (fun _ => some ("abc".data)) ("f")).2.2.2 ("abc".data) rfl (by decide)

/-- C5 counterexample: for the file "a\n\n" the code returns "a" (it trims
every trailing newline), while the claim's single-trailing-newline trim
leaves "a\n", whose last line is the empty string. -/
theorem ReadLastLine_counterexample :
    ReadLastLine (fun _ => some ("a\n\n".data)) ("f") = "a".data ∧
    readLastLineClaimed ("a\n\n".data) = [] ∧
    ReadLastLine (fun _ => some ("a\n\n".data)) ("f") ≠ readLastLineClaimed ("a\n\n".data) :=
  ⟨by decide, by decide, by decide⟩

/-- Decimal rendering of a natural number (fmt `%d`). -/
def natToChars (n : Nat) : List Char := (Nat.repr n).data

/-- fmt `%02d`: zero-pad to two digits. -/
def pad2 (n : Nat) : List Char := if n < 10 then '0' :: natToChars n else natToChars n

/-- Whole seconds of a duration: `int(duration.Seconds())`, modelled as
truncated division of the nanosecond count (float64 `Seconds` is exact at
every scale this program produces). -/
def fdSecs (duration : Int) : Int := duration.tdiv timeSecond

/-- `FormatDuration` (src/internal/session/types.go): compact rendering of
a duration, clamping negatives to "0s". -/
def FormatDuration (duration : Int) : List Char :=
  let totalSeconds : Int := fdSecs duration
  if totalSeconds < 0 then ('0' :: 's' :: []) else
  let t : Nat := totalSeconds.toNat
  let days := t / 86400
  let hours := t % 86400 / 3600
  let minutes := t % 3600 / 60
  let seconds := t % 60
  if days > 0 then natToChars days ++ 'd' :: (natToChars hours ++ ('h' :: []))
  else if hours > 0 then natToChars hours ++ 'h' :: (pad2 minutes ++ ('m' :: []))
  else if minutes > 0 then natToChars minutes ++ ':' :: pad2 seconds
  else natToChars seconds ++ ('s' :: [])

/-- C10: `FormatDuration` is total and clamps negative input — a negative
whole-second value renders as "0s"; otherwise days render as `<d>d<h>h`
when days > 0, hours as `<h>h<mm>m` when hours > 0, minutes as `<m>:<ss>`
when minutes > 0, and plain seconds as `<s>s` otherwise. -/
theorem FormatDuration_spec (duration : Int) :
    (fdSecs duration < 0 → FormatDuration duration = ('0' :: 's' :: [])) ∧
    (0 ≤ fdSecs duration →
      (0 < (fdSecs duration).toNat / 86400 → FormatDuration duration
        = natToChars ((fdSecs duration).toNat / 86400) ++ 'd' ::
            (natToChars ((fdSecs duration).toNat % 86400 / 3600) ++ ('h' :: []))) ∧
      ((fdSecs duration).toNat / 86400 = 0 → 0 < (fdSecs duration).toNat % 86400 / 3600 →
        FormatDuration duration
          = natToChars ((fdSecs duration).toNat % 86400 / 3600) ++ 'h' ::
              (pad2 ((fdSecs duration).toNat % 3600 / 60) ++ ('m' :: []))) ∧
      ((fdSecs duration).toNat / 86400 = 0 → (fdSecs duration).toNat % 86400 / 3600 = 0 →
        0 < (fdSecs duration).toNat % 3600 / 60 → FormatDuration duration
          = natToChars ((fdSecs duration).toNat % 3600 / 60) ++ ':' ::
              pad2 ((fdSecs duration).toNat % 60)) ∧
      ((fdSecs duration).toNat / 86400 = 0 → (fdSecs duration).toNat % 86400 / 3600 = 0 →
        (fdSecs duration).toNat % 3600 / 60 = 0 → FormatDuration duration
          = natToChars ((fdSecs duration).toNat % 60) ++ ('s' :: []))) := by
  constructor
  · intro h
    simp only [FormatDuration]
    rw [if_pos h]
  · intro h0
    have hneg : ¬ fdSecs duration < 0 := not_lt.mpr h0
    refine ⟨?_, ?_, ?_, ?_⟩
    · intro hd
      simp only [FormatDuration]
      rw [if_neg hneg, if_pos hd]
    · intro hd hh
      simp only [FormatDuration]
      rw [if_neg hneg, if_neg (by omega), if_pos hh]
    · intro hd hh hm
      simp only [FormatDuration]
      rw [if_neg hneg, if_neg (by omega), if_neg (by omega), if_pos hm]
    · intro hd hh hm
      simp only [FormatDuration]
      rw [if_neg hneg, if_neg (by omega), if_neg (by omega), if_neg (by omega)]

/-- Witness for C10: 3725 s renders as "1h02m", -1 s as "0s". -/
theorem FormatDuration_spec_witness :
    FormatDuration (3725 * timeSecond) = "1h02m".data ∧
    FormatDuration (-1 * timeSecond) = "0s".data := by
  constructor
  · have h := ((FormatDuration_spec (3725 * timeSecond)).2 (by decide)).2.1
      (by decide) (by decide)
    exact h.trans (by decide)
  · have h := (FormatDuration_spec (-1 * timeSecond)).1 (by decide)
    exact h.trans (by decide)


/-- Session activity state.  The provided `types.go` is a draft copy that
declares only `StateActive`, `StateWaiting` and `StateIdle`; `StateInput`
is used by `DetectState` and the test-suite but its declaration is absent
from the provided sources.  Modelled from the spec: the four-valued enum
{Active, Waiting, Input, Idle}. -/
inductive State
  | active
  | waiting
  | input
  | idle
deriving DecidableEq, Repr

/-- One element of a decoded `message.content` array: the fields the Go
code reads from a content block (`type`, `name` for tool_use blocks,
`text` for text blocks). -/
structure ContentBlock where
  type : String
  name : String
  text : String
deriving DecidableEq, Repr

/-- Decoded shape of the raw `message.content` JSON value, as the Go code
distinguishes it: empty bytes, a JSON string, a JSON array of blocks, or
anything else (which every `json.Unmarshal` attempt rejects). -/
inductive MessageContent
  | empty
  | str (s : String)
  | blocks (bs : List ContentBlock)
  | invalid
deriving DecidableEq, Repr

/-- The `message` object of a transcript line. -/
structure JsonlMessage where
  role : String
  content : MessageContent
deriving DecidableEq, Repr

/-- `jsonlLine` (src/internal/session/metadata.go): the fields decoded
from one JSONL transcript line.  Absent JSON fields decode to `""`
(Go zero values). -/
structure JsonlLine where
  type : String
  message : JsonlMessage
  slug : String
  gitBranch : String
  sessionId : String
  cwd : String
deriving DecidableEq, Repr

/-- `json.Unmarshal` of a line into `jsonlLine`, as an oracle: `none`
models a decode error. -/
def JsonParser : Type := List Char → Option JsonlLine

/-- `hasToolUse` (src/internal/session/metadata.go): whether the content
holds a `tool_use` block with the given name.  `len(raw) == 0` and the
string / non-array shapes fail the `[]contentBlock` unmarshal, so only the
array form is scanned. -/
def hasToolUse (raw : MessageContent) (toolName : String) : Bool :=
  match raw with
  | .empty => false
  | .str _ => false
  | .invalid => false
  | .blocks bs => bs.any (fun b => b.type == "tool_use" && b.name == toolName)

/-- `activeRecentThreshold` (30 s, rule 1 of the state machine). -/
def activeRecentThreshold : Int := 30 * timeSecond

/-- `activeUserPromptThreshold` (5 min, rule 4 of the state machine). -/
def activeUserPromptThreshold : Int := 5 * 60 * timeSecond

/-- `DetectState` (src/internal/session/metadata.go): the 5-rule state
machine over (transcript path, mtime, now), both times in nanoseconds. -/
def DetectState (fs : FileSystem) (parse : JsonParser) (jsonlPath : String)
    (mtime now : Int) : State :=
  let age := now - mtime
  if age < activeRecentThreshold then .active
  else
    let lastLine := ReadLastLine fs jsonlPath
    if lastLine = [] then .idle
    else
      match parse lastLine with
      | none => .idle
      | some entry =>
        if entry.type = "progress" then .active
        else if entry.message.role = "assistant" then
          (if hasToolUse entry.message.content ("AskUserQuestion") then .input else .waiting)
        else if entry.message.role = "user" ∧ age < activeUserPromptThreshold then .active
        else .idle

/-- C1's rule list, written from the spec sentence: rule 1 age < 30 s ⇒
Active; rule 2 last non-empty line missing or unparsable ⇒ Idle; rule 3
type "progress" ⇒ Active; rule 4 assistant role ⇒ Input when an
AskUserQuestion tool_use block is present, else Waiting; rule 5 user role
and age < 5 min ⇒ Active; rule 6 ⇒ Idle. -/
def DetectStateClaim (fs : FileSystem) (parse : JsonParser) (jsonlPath : String)
    (mtime now : Int) : State :=
  let age := now - mtime
  if age < 30 * timeSecond then .active
  else
    let lastLine := ReadLastLine fs jsonlPath
    if lastLine = [] then .idle
    else
      match parse lastLine with
      | none => .idle
      | some line =>
        if line.type = "progress" then .active
        else if line.message.role = "assistant" then
          (if hasToolUse line.message.content ("AskUserQuestion") then .input else .waiting)
        else if line.message.role = "user" ∧ age < 5 * 60 * timeSecond then .active
        else .idle

/-- The spec's end-to-end scenario line
`{"type":"assistant","message":{"role":"assistant","content":"ok"}}`. -/
def scenarioLine : List Char :=
  ("\x7b\"type\":\"assistant\",\"message\":\x7b\"role\":\"assistant\",\"content\":\"ok\"\x7d\x7d").data

/-- A file system holding one transcript whose only line is
`scenarioLine` (no trailing newline). -/
def scenarioFs : FileSystem :=
  fun p => if p = "transcript.jsonl" then some scenarioLine else none

/-- The JSON decoding of `scenarioLine`. -/
def scenarioParse : JsonParser :=
  fun l =>
    if l = scenarioLine then
      some { type := "assistant"
             message := { role := "assistant", content := .str ("ok") }
             slug := ""
             gitBranch := ""
             sessionId := ""
             cwd := "" }
    else none

/-- C1: `DetectState` applies the spec's rules strictly in order, first
match winning (it coincides with the rule list `DetectStateClaim`
transcribed from the claim, for every file system, JSON oracle, path and
pair of timestamps); and on the spec's end-to-end scenario the assistant
text line classifies Waiting at age 90 s and Active at age 10 s. -/
theorem DetectState_rules :
    (∀ (fs : FileSystem) (parse : JsonParser) (p : String) (mtime now : Int),
      DetectState fs parse p mtime now = DetectStateClaim fs parse p mtime now) ∧
    DetectState scenarioFs scenarioParse ("transcript.jsonl") 0 (90 * timeSecond)
      = State.waiting ∧
    DetectState scenarioFs scenarioParse ("transcript.jsonl") 0 (10 * timeSecond)
      = State.active :=
  ⟨fun _ _ _ _ _ => rfl, by decide, by decide⟩


/-- `psEntry` (src/unnamed/part_002): raw data from one `ps` line. -/
structure PsEntry where
  pid : Int
  etime : List Char
  tty : List Char
  command : List Char
deriving DecidableEq, Repr

/-- The per-line body of the `ParsePS` loop: `none` on every `continue`,
`some entry` when the line is appended. -/
def parsePSLine (rawLine : List Char) : Option PsEntry :=
  let line := trimSpace rawLine
  if line.isEmpty then none
  else if ("PID".data).isPrefixOf line then none
  else if !containsSub ("claude".data) line then none
  else if containsSub ("grep".data) line then none
  else
    let fields := goFields line
    if fields.length < 4 then none
    else
      match fields with
      | f0 :: f1 :: f2 :: rest =>
        match Atoi f0 with
        | none => none
        | some pid =>
          some { pid := pid, etime := f1, tty := f2, command := joinWith [ ' ' ] rest }
      | _ => none

/-- `ParsePS` (src/unnamed/part_002): parse `ps -eo pid,etime,tty,command`
output, filtering for "claude" processes; malformed lines are skipped. -/
def ParsePS (output : List Char) : List PsEntry :=
  (splitOnChar '\n' output).filterMap parsePSLine

/-- C9's description of a single line, organised as the claim states it:
an entry is produced only for non-header lines that contain "claude" and
are not grep commands; of those, lines with fewer than four fields or a
non-integer pid are silently skipped; well-formed lines yield exactly the
(pid, etime, tty, command) entry. -/
def parsePSLineClaim (rawLine : List Char) : Option PsEntry :=
  let line := trimSpace rawLine
  let isHeader := line.isEmpty || ("PID".data).isPrefixOf line
  let mentionsProgram := containsSub ("claude".data) line
  let isGrep := containsSub ("grep".data) line
  if isHeader || !mentionsProgram || isGrep then none
  else
    match goFields line, Atoi ((goFields line).headD []) with
    | f0 :: f1 :: f2 :: r0 :: rest, some pid =>
      some { pid := pid, etime := f1, tty := f2, command := joinWith [ ' ' ] (r0 :: rest) }
    | _, _ => none

/-- C9: `ParsePS` never fails — it returns exactly the entries of the
well-formed lines: the header line, lines not containing "claude", grep
lines, lines with fewer than four whitespace-delimited fields, and lines
whose first field is not a valid integer all contribute nothing. -/
theorem ParsePS_skips_malformed (output : List Char) :
    ParsePS output = (splitOnChar '\n' output).filterMap parsePSLineClaim := by
  unfold ParsePS
  congr 1
  funext rawLine
  unfold parsePSLine parsePSLineClaim
  by_cases h1 : (trimSpace rawLine).isEmpty
  · simp [h1]
  · by_cases h2 : ("PID".data).isPrefixOf (trimSpace rawLine)
    · simp [h1, h2]
    · by_cases h3 : containsSub ("claude".data) (trimSpace rawLine)
      · by_cases h4 : containsSub ("grep".data) (trimSpace rawLine)
        · simp [h1, h2, h3, h4]
        · simp only [h1, h2, h3, h4, Bool.false_or, Bool.or_false, Bool.not_true,
            Bool.false_eq_true, if_false, Bool.not_false, if_true]
          cases hf : goFields (trimSpace rawLine) with
          | nil => simp
          | cons f0 frest =>
            cases frest with
            | nil => simp
            | cons f1 frest2 =>
              cases frest2 with
              | nil => simp
              | cons f2 frest3 =>
                cases frest3 with
                | nil => simp
                | cons r0 rest =>
                  simp only [List.length_cons, List.headD_cons]
                  have hlen : ¬ (rest.length + 1 + 1 + 1 + 1 < 4) := by omega
                  simp only [hlen, if_false]
                  cases Atoi f0 with
                  | none => rfl
                  | some pid => rfl
      · simp [h1, h2, h3]

/-- Witness: a tiny ps dump with a header, a real claude line, a grep
line, a short line and a non-numeric pid line parses to one entry. -/
theorem ParsePS_skips_malformed_witness :
    ParsePS ("  PID ELAPSED TTY COMMAND\n77 1:30 ttys001 claude chat\nclaude\n9 9 9\nx 1:30 ttys002 claude\n88 2:00 ttys003 grep claude\n".data)
      = [{ pid := 77, etime := "1:30".data, tty := "ttys001".data,
           command := "claude chat".data }] := by
  rw [ParsePS_skips_malformed]
  decide


/-- `sessionsIndexEntry` (src/internal/session/metadata.go): one entry of
`sessions-index.json`. -/
structure SessionsIndexEntry where
  sessionId : String
  fullPath : String
  firstPrompt : List Char
  messageCount : Int
  fileMtime : Int
  created : String
  modified : String
  gitBranch : String
deriving DecidableEq, Repr

/-- UTF-8 byte length of a rune list (Go `len` on a string). -/
def utf8Len (l : List Char) : Nat :=
  (l.map Char.utf8Size).sum

/-- Go `prompt[:maxPromptLength]` guarded by `len(prompt) > maxPromptLength`:
keep the longest rune prefix within 200 bytes.  (When the 200-byte boundary
falls inside a multi-byte rune Go would keep its leading bytes as an
invalid-UTF-8 remnant; a rune list cannot express that remnant, and the
≤ 200-byte bound — the property claimed — is unaffected.) -/
def truncatePrompt : List Char → List Char
  | l =>
    if utf8Len l ≤ 200 then l
    else truncateBytes 200 l
where
  truncateBytes : Nat → List Char → List Char
    | _, [] => []
    | budget, c :: rest =>
      if c.utf8Size ≤ budget then c :: truncateBytes (budget - c.utf8Size) rest
      else []

/-- Descending insertion by `fileMtime`: a sort satisfying the
`sort.Slice` comparator `entries[i].FileMtime > entries[j].FileMtime`
(`sort.Slice` is unstable, so any order among equal keys is a faithful
model). -/
def insertByMtime (e : SessionsIndexEntry) :
    List SessionsIndexEntry → List SessionsIndexEntry
  | [] => [e]
  | x :: xs =>
    if x.fileMtime < e.fileMtime then e :: x :: xs else x :: insertByMtime e xs

/-- The `sort.Slice(...)` call of `findSessionFromIndex`. -/
def sortByMtimeDesc (entries : List SessionsIndexEntry) : List SessionsIndexEntry :=
  entries.foldr insertByMtime []

/-- What `findSessionFromIndex` hands back on success. -/
structure FoundSession where
  fullPath : String
  firstPrompt : List Char
  messageCount : Int
  gitBranch : String
deriving DecidableEq, Repr

/-- `findSessionFromIndex` (src/internal/session/metadata.go).  The
`index` input is the read-and-decode result for `sessions-index.json`:
`none` models a missing/unreadable file or a JSON decode error. -/
def findSessionFromIndex : Option (List SessionsIndexEntry) → Option FoundSession
  | none => none
  | some entries =>
    if entries.length = 0 then none
    else
      match sortByMtimeDesc entries with
      | [] => none
      | entry :: _ =>
        if entry.fullPath = "" then none
        else
          some { fullPath := entry.fullPath
                 firstPrompt := truncatePrompt entry.firstPrompt
                 messageCount := entry.messageCount
                 gitBranch := entry.gitBranch }

/-- The `found`-combining step of `enrichSession`: the index result wins;
`if !found`, the directory-scan fallback result is used instead. -/
def resolveFound (index : Option (List SessionsIndexEntry))
    (fallback : Option FoundSession) : Option FoundSession :=
  match findSessionFromIndex index with
  | some r => some r
  | none => fallback

theorem insertByMtime_cons (e x : SessionsIndexEntry) (xs : List SessionsIndexEntry) :
    insertByMtime e (x :: xs)
      = if x.fileMtime < e.fileMtime then e :: x :: xs else x :: insertByMtime e xs := rfl

theorem mem_insertByMtime {x e : SessionsIndexEntry} {l : List SessionsIndexEntry} :
    x ∈ insertByMtime e l ↔ x = e ∨ x ∈ l := by
  induction l with
  | nil => simp [insertByMtime]
  | cons y ys ih =>
    unfold insertByMtime
    by_cases h : y.fileMtime < e.fileMtime
    · simp [h]
    · simp only [h, if_false, List.mem_cons, ih]
      tauto

theorem sortByMtimeDesc_head_max {entries : List SessionsIndexEntry}
    (h : entries ≠ []) :
    ∃ e rest, sortByMtimeDesc entries = e :: rest ∧ e ∈ entries ∧
      ∀ x ∈ entries, x.fileMtime ≤ e.fileMtime := by
  induction entries with
  | nil => exact absurd rfl h
  | cons a l ih =>
    by_cases hl : l = []
    · subst hl
      exact ⟨a, [], rfl, by simp, by simp⟩
    · obtain ⟨e, rest, hsort, hmem, hmax⟩ := ih hl
      have hfold : sortByMtimeDesc (a :: l) = insertByMtime a (e :: rest) := by
        unfold sortByMtimeDesc at hsort ⊢
        simp [List.foldr_cons, hsort]
      by_cases hcmp : e.fileMtime < a.fileMtime
      · refine ⟨a, e :: rest, ?_, by simp, ?_⟩
        · rw [hfold, insertByMtime_cons, if_pos hcmp]
        · intro x hx
          rcases List.mem_cons.mp hx with rfl | hx2
          · exact le_refl _
          · exact le_trans (hmax x hx2) (le_of_lt hcmp)
      · refine ⟨e, insertByMtime a rest, ?_, by simp [hmem], ?_⟩
        · rw [hfold, insertByMtime_cons, if_neg hcmp]
        · intro x hx
          rcases List.mem_cons.mp hx with rfl | hx2
          · exact le_of_not_lt hcmp
          · exact hmax x hx2

theorem utf8Size_pos (c : Char) : 1 ≤ c.utf8Size := by
  have := Char.utf8Size_pos c
  omega

theorem truncateBytes_spec (budget : Nat) (l : List Char) :
    truncatePrompt.truncateBytes budget l <+: l ∧
    utf8Len (truncatePrompt.truncateBytes budget l) ≤ budget := by
  induction l generalizing budget with
  | nil => simp [truncatePrompt.truncateBytes, utf8Len]
  | cons c rest ih =>
    unfold truncatePrompt.truncateBytes
    by_cases h : c.utf8Size ≤ budget
    · obtain ⟨ih1, ih2⟩ := ih (budget - c.utf8Size)
      rw [if_pos h]
      constructor
      · exact List.cons_prefix_cons.mpr ⟨rfl, ih1⟩
      · simp only [utf8Len, List.map_cons, List.sum_cons]
        simp only [utf8Len] at ih2
        omega
    · rw [if_neg h]
      exact ⟨List.nil_prefix, by simp [utf8Len]⟩

theorem truncatePrompt_spec (l : List Char) :
    truncatePrompt l <+: l ∧ utf8Len (truncatePrompt l) ≤ 200 ∧
    (truncatePrompt l).length ≤ 200 ∧ (utf8Len l ≤ 200 → truncatePrompt l = l) := by
  have hlen : ∀ m : List Char, m.length ≤ utf8Len m := by
    intro m
    induction m with
    | nil => simp [utf8Len]
    | cons c r ihr =>
      simp only [utf8Len, List.map_cons, List.sum_cons, List.length_cons] at *
      have := utf8Size_pos c
      omega
  unfold truncatePrompt
  by_cases h : utf8Len l ≤ 200
  · rw [if_pos h]
    exact ⟨List.prefix_refl l, h, le_trans (hlen l) h, fun _ => rfl⟩
  · rw [if_neg h]
    obtain ⟨h1, h2⟩ := truncateBytes_spec 200 l
    exact ⟨h1, h2, le_trans (hlen _) h2, fun hc => absurd hc h⟩


/-- C7: with a decoded index of at least one entry, `findSessionFromIndex`
selects an entry of maximal embedded fileMtime (sort descending, take the
first) and truncates its firstPrompt to at most 200 bytes — hence at most
200 characters — before returning it; a missing/unparsable index, an empty
entry list, or a selected entry with empty fullPath yields `none`, which
makes `resolveFound` fall back to the directory-scan result. -/
theorem findSessionFromIndex_spec :
    findSessionFromIndex none = none ∧
    findSessionFromIndex (some []) = none ∧
    (∀ entries r, findSessionFromIndex (some entries) = some r →
      ∃ e ∈ entries, r.fullPath = e.fullPath ∧ e.fullPath ≠ "" ∧
        r.firstPrompt = truncatePrompt e.firstPrompt ∧
        r.firstPrompt <+: e.firstPrompt ∧ utf8Len r.firstPrompt ≤ 200 ∧
        r.firstPrompt.length ≤ 200 ∧
        r.messageCount = e.messageCount ∧ r.gitBranch = e.gitBranch ∧
        ∀ x ∈ entries, x.fileMtime ≤ e.fileMtime) ∧
    (∀ entries e rest, sortByMtimeDesc entries = e :: rest → e.fullPath = "" →
      findSessionFromIndex (some entries) = none) ∧
    (∀ index fb, findSessionFromIndex index = none → resolveFound index fb = fb) := by
  refine ⟨rfl, rfl, ?_, ?_, ?_⟩
  · intro entries r h
    simp only [findSessionFromIndex] at h
    by_cases hlen : entries.length = 0
    · rw [if_pos hlen] at h
      cases h
    · rw [if_neg hlen] at h
      have hne : entries ≠ [] := by
        intro hcon
        rw [hcon] at hlen
        exact hlen rfl
      obtain ⟨e, rest, hsort, hmem, hmax⟩ := sortByMtimeDesc_head_max hne
      rw [hsort] at h
      replace h : (if e.fullPath = "" then (none : Option FoundSession)
          else some { fullPath := e.fullPath, firstPrompt := truncatePrompt e.firstPrompt,
                      messageCount := e.messageCount, gitBranch := e.gitBranch }) = some r := h
      by_cases hfp : e.fullPath = ""
      · rw [if_pos hfp] at h
        cases h
      · rw [if_neg hfp] at h
        obtain ⟨ht1, ht2, ht3, _⟩ := truncatePrompt_spec e.firstPrompt
        cases h
        exact ⟨e, hmem, rfl, hfp, rfl, ht1, ht2, ht3, rfl, rfl, hmax⟩
  · intro entries e rest hsort hfp
    simp only [findSessionFromIndex]
    by_cases hlen : entries.length = 0
    · rw [if_pos hlen]
    · rw [if_neg hlen, hsort]
      show (if e.fullPath = "" then (none : Option FoundSession)
          else some { fullPath := e.fullPath, firstPrompt := truncatePrompt e.firstPrompt,
                      messageCount := e.messageCount, gitBranch := e.gitBranch }) = none
      rw [if_pos hfp]
  · intro index fb h
    simp only [resolveFound]
    rw [h]

/-- A concrete stale index entry. -/
def idxEntryA : SessionsIndexEntry :=
  { sessionId := "a", fullPath := "pa", firstPrompt := "hello".data,
    messageCount := 3, fileMtime := 5, created := "", modified := "", gitBranch := "main" }

/-- A concrete fresher index entry. -/
def idxEntryB : SessionsIndexEntry :=
  { sessionId := "b", fullPath := "pb", firstPrompt := "world".data,
    messageCount := 7, fileMtime := 9, created := "", modified := "", gitBranch := "dev" }

/-- Witness for C7: the fresher of two entries is selected verbatim, and an
empty index falls back. -/
theorem findSessionFromIndex_spec_witness :
    (∃ e ∈ [idxEntryA, idxEntryB],
      (⟨"pb", "world".data, 7, "dev"⟩ : FoundSession).fullPath = e.fullPath ∧
      e.fullPath ≠ "" ∧
      (⟨"pb", "world".data, 7, "dev"⟩ : FoundSession).firstPrompt
        = truncatePrompt e.firstPrompt ∧
      (⟨"pb", "world".data, 7, "dev"⟩ : FoundSession).firstPrompt <+: e.firstPrompt ∧
      utf8Len (⟨"pb", "world".data, 7, "dev"⟩ : FoundSession).firstPrompt ≤ 200 ∧
      (⟨"pb", "world".data, 7, "dev"⟩ : FoundSession).firstPrompt.length ≤ 200 ∧
      (⟨"pb", "world".data, 7, "dev"⟩ : FoundSession).messageCount = e.messageCount ∧
      (⟨"pb", "world".data, 7, "dev"⟩ : FoundSession).gitBranch = e.gitBranch ∧
      ∀ x ∈ [idxEntryA, idxEntryB], x.fileMtime ≤ e.fileMtime) ∧
    resolveFound (some []) (some ⟨"pa", [], 0, ""⟩) = some ⟨"pa", [], 0, ""⟩ :=
  ⟨findSessionFromIndex_spec.2.2.1 [idxEntryA, idxEntryB] ⟨"pb", "world".data, 7, "dev"⟩
      (by decide),
    findSessionFromIndex_spec.2.2.2.2 (some []) (some ⟨"pa", [], 0, ""⟩) rfl⟩


/-- Scan for the first `>`; returns the suffix after it.  Together with
`findTagEnd` this realises one leftmost match of the Go regexp
`<[^>]+>` starting at a `<`. -/
def scanToGt : List Char → Option (List Char)
  | [] => none
  | c :: rest => if c = '>' then some rest else scanToGt rest

/-- Given the text following a `<`: a match of `[^>]+>` requires at least
one non-`>` rune and then runs to the first `>`. -/
def findTagEnd : List Char → Option (List Char)
  | [] => none
  | c :: rest => if c = '>' then none else scanToGt rest

/-- `xmlTagRegex.ReplaceAllString(prompt, "")`: delete every leftmost
match of `<[^>]+>`.  `fuel ≥ length` bounds the recursion (every step
consumes at least one rune). -/
def replaceTags : Nat → List Char → List Char
  | 0, l => l
  | fuel + 1, l =>
    match l with
    | [] => []
    | c :: rest =>
      if c = '<' then
        match findTagEnd rest with
        | some rest2 => replaceTags fuel rest2
        | none => c :: replaceTags fuel rest
      else c :: replaceTags fuel rest

/-- Whether some substring matches `<[^>]+>`. -/
def containsTag : List Char → Bool
  | [] => false
  | c :: rest => (if c = '<' then (findTagEnd rest).isSome else false) || containsTag rest

/-- Prefix match plus drop (one literal piece of a regexp alternative). -/
def dropPfx (p l : List Char) : Option (List Char) :=
  if p.isPrefixOf l then some (l.drop p.length) else none

/-- `[^.]*\. `: run to the first `.`, which must be followed by a space. -/
def scanCaveat : List Char → Option (List Char)
  | [] => none
  | c :: rest =>
    if c = '.' then
      match rest with
      | ' ' :: r2 => some r2
      | _ => none
    else scanCaveat rest

/-- `.*$` in multiline mode: consume up to (not including) the next
newline or the end of input. -/
def dropToLineEnd (l : List Char) : List Char :=
  l.dropWhile (fun c => !(c == '\n'))

/-- `$` in multiline mode: succeeds (consuming nothing) at end of input
or just before a newline. -/
def matchAtLineEnd : List Char → Option (List Char)
  | [] => some []
  | c :: rest => if c = '\n' then some (c :: rest) else none

/-- Alternative `Caveat:[^.]*\. ` of `noiseRegex`. -/
def noiseMatchCaveat (l : List Char) : Option (List Char) :=
  match dropPfx (("Caveat:").data) l with
  | some r => scanCaveat r
  | none => none

/-- Alternative `Implement the following plan: *`. -/
def noiseMatchPlan (l : List Char) : Option (List Char) :=
  match dropPfx (("Implement the following plan:").data) l with
  | some r => some (r.dropWhile (fun c => c == ' '))
  | none => none

/-- Alternative `# `. -/
def noiseMatchHeading (l : List Char) : Option (List Char) :=
  dropPfx (("# ").data) l

/-- Alternative `DO NOT .*$`. -/
def noiseMatchDoNot (l : List Char) : Option (List Char) :=
  (dropPfx (("DO NOT ").data) l).map dropToLineEnd

/-- Alternative `IMPORTANT:.*$`. -/
def noiseMatchImportant (l : List Char) : Option (List Char) :=
  (dropPfx (("IMPORTANT:").data) l).map dropToLineEnd

/-- Alternative `The messages below.*$`. -/
def noiseMatchBelow (l : List Char) : Option (List Char) :=
  (dropPfx (("The messages below").data) l).map dropToLineEnd

/-- Alternative `No prompt$`. -/
def noiseMatchNoPrompt (l : List Char) : Option (List Char) :=
  match dropPfx (("No prompt").data) l with
  | some r => matchAtLineEnd r
  | none => none

/-- One attempted match of `noiseRegex` at a line start, alternatives in
source order (Go regexp alternation is leftmost-first).  Returns the
suffix after the deleted match. -/
def noiseMatch (l : List Char) : Option (List Char) :=
  (noiseMatchCaveat l).orElse fun _ =>
  (noiseMatchPlan l).orElse fun _ =>
  (noiseMatchHeading l).orElse fun _ =>
  (noiseMatchDoNot l).orElse fun _ =>
  (noiseMatchImportant l).orElse fun _ =>
  (noiseMatchBelow l).orElse fun _ =>
  noiseMatchNoPrompt l

/-- `noiseRegex.ReplaceAllString(prompt, "")`: walk the text, attempting a
match at every line start (`(?m)^`), deleting each match and resuming
after it.  Every alternative consumes at least two runes, so
`fuel ≥ length` bounds the recursion. -/
def noiseReplace : Nat → Bool → List Char → List Char
  | 0, _, l => l
  | fuel + 1, true, l =>
    match noiseMatch l with
    | some rest => noiseReplace fuel false rest
    | none =>
      match l with
      | [] => []
      | c :: rest => c :: noiseReplace fuel (c == '\n') rest
  | fuel + 1, false, l =>
    match l with
    | [] => []
    | c :: rest => c :: noiseReplace fuel (c == '\n') rest

/-- `stripXMLAndNoise` (src/internal/session/metadata.go): strip tags and
noise prefixes, then collapse all whitespace runs to single spaces. -/
def stripXMLAndNoise (prompt : List Char) : List Char :=
  let p1 := replaceTags prompt.length prompt
  let p2 := noiseReplace p1.length true p1
  joinWith [ ' ' ] (goFields p2)

/-- Go `path/filepath.Base` (volume names elided — inputs here are Unix
paths). -/
def filepathBase (path : List Char) : List Char :=
  if path.isEmpty then ('.' :: []) else
  let p2 := (path.reverse.dropWhile (fun c => c == '/')).reverse
  if p2.isEmpty then ('/' :: []) else
  (p2.reverse.takeWhile (fun c => !(c == '/'))).reverse

/-- `stripIDESelectionTag` (src/internal/session/metadata.go). -/
def stripIDESelectionTag (prompt : List Char) : List Char × Bool :=
  if !(("<ide_selection>").data.isPrefixOf prompt) then (prompt, false)
  else
    match splitFirstOccur (("</ide_selection>").data) prompt with
    | some (before, afterRaw) =>
      let afterTag := trimSpace afterRaw
      if !afterTag.isEmpty then (afterTag, true)
      else
        let inner0 := before.drop (("<ide_selection>").data.length)
        let inner1 :=
          match splitFirstOccur (("This may or may not").data) inner0 with
          | some (b, _) => b
          | none => inner0
        let inner2 :=
          match splitFirstOccur ((": ").data) inner1 with
          | some (_, a) => a
          | none => inner1
        let inner := trimSpace inner2
        if !inner.isEmpty then (inner, true)
        else ((("(IDE selection)").data), true)
    | none => (prompt, true)

/-- `stripIDEOpenedFileTag` (src/internal/session/metadata.go). -/
def stripIDEOpenedFileTag (prompt : List Char) : List Char × Bool :=
  if !(("<ide_opened_file>").data.isPrefixOf prompt) then ([], false)
  else
    match splitFirstOccur (("opened the file ").data) prompt with
    | some (_, rest) =>
      match splitFirstOccur ((" in the IDE").data) rest with
      | some (filePath, _) =>
        ((("(opened ").data) ++ filepathBase filePath ++ (")").data, true)
      | none => ((("(IDE context)").data), true)
    | none => ((("(IDE context)").data), true)

/-- `CleanTopic` (src/internal/session/metadata.go): strip IDE tags and
system noise from a first prompt. -/
def CleanTopic (prompt : List Char) : List Char :=
  if prompt.isEmpty then []
  else
    let s1 := stripIDESelectionTag prompt
    let prompt2 := if s1.2 then s1.1 else prompt
    if s1.2 && prompt2.isEmpty then []
    else
      let s2 := stripIDEOpenedFileTag prompt2
      if s2.2 then s2.1
      else stripXMLAndNoise prompt2


/-- `Source` (src/internal/session/types.go): how a session was launched. -/
structure Source where
  type : String
deriving DecidableEq, Repr

/-- `Session` (src/internal/session/types.go).  `topic` and `project` are
rune lists (they are produced by the text pipeline); `duration` is
nanoseconds. -/
structure Session where
  pid : Int
  cwd : String
  state : State
  source : Source
  project : List Char
  topic : List Char
  branch : String
  duration : Int
  messages : Int
deriving DecidableEq, Repr

/-- `cachedMetadata` (src/internal/session/metadata.go). -/
structure CachedMetadata where
  fullPath : String
  topic : List Char
  messages : Int
  branch : String
deriving DecidableEq, Repr

/-- The process-wide `metadataCache` map, as an association list (newest
binding first; Go map semantics for the keys used here, which are only
ever inserted when absent). -/
def Cache : Type := List (String × CachedMetadata)

/-- Go `metadataCache[cacheKey]` read. -/
def cacheLookup (cache : Cache) (key : String) : Option CachedMetadata :=
  match cache.find? (fun kv => kv.1 == key) with
  | some kv => some kv.2
  | none => none

/-- Go `metadataCache[cacheKey] = v` write. -/
def cacheInsert (cache : Cache) (key : String) (v : CachedMetadata) : Cache :=
  (key, v) :: cache

/-- The cache-miss topic computation of `enrichSession`: `CleanTopic` of
the first prompt, else the transcript's `slug`, else the first 8 runes of
its session id, else empty. -/
def freshTopic (fs : FileSystem) (parse : JsonParser) (fullPath : String)
    (firstPrompt : List Char) : List Char :=
  let topic := CleanTopic firstPrompt
  if !topic.isEmpty then topic
  else
    let lastLine := ReadLastLine fs fullPath
    if lastLine.isEmpty then []
    else
      match parse lastLine with
      | none => []
      | some entry =>
        if entry.slug ≠ "" then entry.slug.data
        else if entry.sessionId ≠ "" ∧ entry.sessionId.length ≥ 8 then
          entry.sessionId.data.take 8
        else []

/-- `enrichSession` (src/internal/session/metadata.go).  File reads and
decodes enter as oracles: `index` is the decoded sessions-index.json,
`fallback` the result of the `findSessionFallback` directory scan,
`stat` the `os.Stat` mtime in nanoseconds, `formatTime` the
`time.RFC3339Nano` rendering used to build the cache key. -/
def enrichSession (fs : FileSystem) (parse : JsonParser) (formatTime : Int → String)
    (index : Option (List SessionsIndexEntry)) (fallback : Option FoundSession)
    (stat : String → Option Int) (now : Int) (session : Session) (cache : Cache) :
    Session × Cache :=
  let session := { session with state := State.idle }
  match resolveFound index fallback with
  | none => (session, cache)
  | some found =>
    match stat found.fullPath with
    | none => (session, cache)
    | some mtime =>
      let cacheKey := session.cwd ++ ":" ++ formatTime mtime
      match cacheLookup cache cacheKey with
      | some cached =>
        ({ session with
            topic := cached.topic,
            messages := cached.messages,
            branch := cached.branch,
            state := DetectState fs parse cached.fullPath mtime now }, cache)
      | none =>
        let topic := freshTopic fs parse found.fullPath found.firstPrompt
        ({ session with
            topic := topic,
            messages := found.messageCount,
            branch := found.gitBranch,
            state := DetectState fs parse found.fullPath mtime now },
          cacheInsert cache cacheKey
            { fullPath := found.fullPath, topic := topic,
              messages := found.messageCount, branch := found.gitBranch })

theorem cacheLookup_insert (cache : Cache) (key : String) (v : CachedMetadata)
    (k : String) :
    cacheLookup (cacheInsert cache key v) k
      = if key = k then some v else cacheLookup cache k := by
  unfold cacheLookup cacheInsert
  by_cases h : key = k
  · rw [List.find?_cons_of_pos _ (by simpa using h), if_pos h]
  · rw [List.find?_cons_of_neg _ (by simpa using h), if_neg h]

/-- C3: on a cache hit `enrichSession` copies topic, messages and branch
verbatim from the cache, recomputes state from the current time, and
leaves the cache untouched; on a miss it computes them fresh, stores them
under the (cwd, mtime) key, and no step of the process ever modifies or
removes an existing cache entry. -/
theorem enrichSession_cache_spec (fs : FileSystem) (parse : JsonParser)
    (formatTime : Int → String) (index : Option (List SessionsIndexEntry))
    (fallback : Option FoundSession) (stat : String → Option Int) (now : Int)
    (session : Session) (cache : Cache) (s2 : Session) (cache2 : Cache)
    (hrun : enrichSession fs parse formatTime index fallback stat now session cache
      = (s2, cache2)) :
    (∀ found mtime cached, resolveFound index fallback = some found →
      stat found.fullPath = some mtime →
      cacheLookup cache (session.cwd ++ ":" ++ formatTime mtime) = some cached →
      s2.topic = cached.topic ∧ s2.messages = cached.messages ∧
      s2.branch = cached.branch ∧
      s2.state = DetectState fs parse cached.fullPath mtime now ∧
      cache2 = cache) ∧
    (∀ found mtime, resolveFound index fallback = some found →
      stat found.fullPath = some mtime →
      cacheLookup cache (session.cwd ++ ":" ++ formatTime mtime) = none →
      s2.topic = freshTopic fs parse found.fullPath found.firstPrompt ∧
      s2.messages = found.messageCount ∧ s2.branch = found.gitBranch ∧
      s2.state = DetectState fs parse found.fullPath mtime now ∧
      cacheLookup cache2 (session.cwd ++ ":" ++ formatTime mtime)
        = some { fullPath := found.fullPath,
                 topic := freshTopic fs parse found.fullPath found.firstPrompt,
                 messages := found.messageCount, branch := found.gitBranch }) ∧
    (∀ k v, cacheLookup cache k = some v → cacheLookup cache2 k = some v) := by
  refine ⟨?_, ?_, ?_⟩
  · intro found mtime cached hf hs hc
    simp only [enrichSession, hf, hs, hc] at hrun
    injection hrun with h1 h2
    subst h1
    subst h2
    exact ⟨rfl, rfl, rfl, rfl, rfl⟩
  · intro found mtime hf hs hc
    simp only [enrichSession, hf, hs, hc] at hrun
    injection hrun with h1 h2
    subst h1
    subst h2
    refine ⟨rfl, rfl, rfl, rfl, ?_⟩
    rw [cacheLookup_insert, if_pos rfl]
  · intro k v h
    cases hf : resolveFound index fallback with
    | none =>
      simp only [enrichSession, hf] at hrun
      injection hrun with h1 h2
      subst h2
      exact h
    | some found =>
      cases hs : stat found.fullPath with
      | none =>
        simp only [enrichSession, hf, hs] at hrun
        injection hrun with h1 h2
        subst h2
        exact h
      | some mtime =>
        cases hc : cacheLookup cache (session.cwd ++ ":" ++ formatTime mtime) with
        | some cached =>
          simp only [enrichSession, hf, hs, hc] at hrun
          injection hrun with h1 h2
          subst h2
          exact h
        | none =>
          simp only [enrichSession, hf, hs, hc] at hrun
          injection hrun with h1 h2
          subst h2
          rw [cacheLookup_insert]
          by_cases hk : session.cwd ++ ":" ++ formatTime mtime = k
          · rw [← hk] at h
            rw [hc] at h
            cases h
          · rw [if_neg hk]
            exact h

/-- Concrete inputs for the C3 witness: a cache already holding the key
"w:T". -/
def demoFs : FileSystem := fun _ => none

/-- C3 witness: trivial JSON oracle. -/
def demoParse : JsonParser := fun _ => none

/-- C3 witness: constant time formatter. -/
def demoFmt : Int → String := fun _ => "T"

/-- C3 witness: a directory-scan result. -/
def demoFallback : Option FoundSession :=
  some { fullPath := "path", firstPrompt := "hi".data, messageCount := 4, gitBranch := "b" }

/-- C3 witness: mtime oracle. -/
def demoStat : String → Option Int := fun p => if p = "path" then some 0 else none

/-- C3 witness: the session being enriched. -/
def demoSession : Session :=
  { pid := 1, cwd := "w", state := State.idle, source := { type := "CLI" },
    project := [], topic := [], branch := "", duration := 0, messages := 0 }

/-- C3 witness: the cached metadata under key "w:T". -/
def demoCached : CachedMetadata :=
  { fullPath := "path", topic := "t".data, messages := 9, branch := "br" }

/-- C3 witness: the pre-populated cache. -/
def demoCache : Cache := [(("w:T"), demoCached)]

/-- C3 witness: one enrichment run. -/
def demoRun : Session × Cache :=
  enrichSession demoFs demoParse demoFmt none demoFallback demoStat 0 demoSession demoCache

/-- Witness for C3: the pre-populated entry is reused verbatim, state is
recomputed, and the cache is unchanged. -/
theorem enrichSession_cache_spec_witness :
    demoRun.1.topic = "t".data ∧ demoRun.1.messages = 9 ∧ demoRun.1.branch = "br" ∧
    demoRun.1.state = DetectState demoFs demoParse ("path") 0 0 ∧ demoRun.2 = demoCache := by
  have h := (enrichSession_cache_spec demoFs demoParse demoFmt none demoFallback demoStat 0
      demoSession demoCache demoRun.1 demoRun.2 rfl).1
    { fullPath := "path", firstPrompt := "hi".data, messageCount := 4, gitBranch := "b" }
    0 demoCached (by decide) (by decide) (by decide)
  exact ⟨h.1, h.2.1, h.2.2.1, h.2.2.2.1, h.2.2.2.2⟩


/-- `ideLockFile` (src/unnamed/part_002): decoded lock-file JSON. -/
structure IdeLockFile where
  pid : Int
  workspaceFolders : List String
  ideName : String
  transport : String
deriving DecidableEq, Repr

/-- `shortenIDEName` (src/unnamed/part_002). -/
def shortenIDEName (fullName : String) : String :=
  if containsSub (("Visual Studio Code").data) fullName.data then "VSCode"
  else if containsSub (("Cursor").data) fullName.data then "Cursor"
  else if fullName = "" then "IDE"
  else fullName

/-- Go `path/filepath.Dir` for the slash-normalised Unix paths this
program feeds it (`Dir` = split off the last element, then `Clean`, which
on such inputs only drops trailing slashes; no `.`/`..` segments occur). -/
def filepathDir (path : List Char) : List Char :=
  let dirPart := (path.reverse.dropWhile (fun c => !(c == '/'))).reverse
  if dirPart.isEmpty then ('.' :: [])
  else
    let d2 := (dirPart.reverse.dropWhile (fun c => c == '/')).reverse
    if d2.isEmpty then ('/' :: []) else d2

/-- `ShortProjectName` (src/unnamed/part_002): last two path components. -/
def ShortProjectName (fullPath : String) : List Char :=
  let trimmed := (fullPath.data.reverse.dropWhile (fun c => c == '/')).reverse
  let name := filepathBase trimmed
  let parent := filepathBase (filepathDir trimmed)
  if parent = ('/' :: []) ∨ parent = ('.' :: []) ∨ parent = [] then name
  else parent ++ '/' :: name

/-- `discoverCLISessions` (src/unnamed/part_002): walk the ps entries,
keeping terminal-attached (`tty ≠ "??"`) top-level `claude` commands with
a resolved, unseen CWD; each accepted CWD is added to the seen-set
immediately (streaming dedup).  Newly created sessions carry Go zero
values for the derived fields (`State` zero value is `StateActive`);
enrichment overwrites them later. -/
def discoverCLISessions : List PsEntry → (Int → Option String) → List String → List Session
  | [], _, _ => []
  | entry :: rest, cwdMap, seen =>
    if entry.tty = ("??").data then discoverCLISessions rest cwdMap seen
    else
      match goFields entry.command with
      | [] => discoverCLISessions rest cwdMap seen
      | c0 :: _ =>
        if !(filepathBase c0 = ("claude").data) then discoverCLISessions rest cwdMap seen
        else
          match cwdMap entry.pid with
          | none => discoverCLISessions rest cwdMap seen
          | some cwd =>
            if cwd = "" then discoverCLISessions rest cwdMap seen
            else if seen.contains cwd then discoverCLISessions rest cwdMap seen
            else
              { pid := entry.pid, cwd := cwd, state := State.active,
                source := { type := "CLI" }, project := ShortProjectName cwd,
                topic := [], branch := "", duration := ParseEtime entry.etime,
                messages := 0 }
                :: discoverCLISessions rest cwdMap (cwd :: seen)

/-- `discoverIDESessions` (src/unnamed/part_002): for each decoded live
lock file, take its first workspace folder and attach the first
IDE-launched (`tty = "??"`) process whose resolved CWD extends that
workspace (`break` after the first match = `List.find?`). -/
def discoverIDESessions (lockFiles : List (Option IdeLockFile)) (alive : Int → Bool)
    (entries : List PsEntry) (cwdMap : Int → Option String) : List Session :=
  lockFiles.filterMap (fun lockParse =>
    match lockParse with
    | none => none
    | some lockFile =>
      if lockFile.pid = 0 ∨ lockFile.workspaceFolders = [] then none
      else if !alive lockFile.pid then none
      else
        match lockFile.workspaceFolders with
        | [] => none
        | workspace :: _ =>
          let ideName := shortenIDEName lockFile.ideName
          match entries.find? (fun e =>
            e.tty == ("??").data &&
            (match cwdMap e.pid with
             | some cwd => workspace.data.isPrefixOf cwd.data
             | none => false)) with
          | none => none
          | some entry =>
            some { pid := entry.pid, cwd := workspace, state := State.active,
                   source := { type := ideName }, project := ShortProjectName workspace,
                   topic := [], branch := "", duration := ParseEtime entry.etime,
                   messages := 0 })

/-- `DiscoverAll` (src/unnamed/part_002).  External effects are inputs:
`psOutput` is the raw `ps` text, `cwdMap` the batched CWD resolution
(`BatchResolveCWDs`), `lockFiles` the read-and-decode results of the
`~/.claude/ide/*.lock` glob in glob order, `alive` the signal-0 liveness
probe.  The trailing `EnrichSessions` pass is not modelled here: it
rewrites only state/topic/branch/messages, never CWD or Source, which are
what the fusion claims are about. -/
def DiscoverAll (psOutput : List Char) (cwdMap : Int → Option String)
    (lockFiles : List (Option IdeLockFile)) (alive : Int → Bool) : List Session :=
  let entries := ParsePS psOutput
  if entries.isEmpty then []
  else
    let ideSessions := discoverIDESessions lockFiles alive entries cwdMap
    let seenCWDs := ideSessions.map (fun s => s.cwd)
    let cliSessions := discoverCLISessions entries cwdMap seenCWDs
    ideSessions ++ cliSessions

theorem discoverIDESessions_nil (lockFiles : List (Option IdeLockFile))
    (alive : Int → Bool) (cwdMap : Int → Option String) :
    discoverIDESessions lockFiles alive [] cwdMap = [] := by
  unfold discoverIDESessions
  induction lockFiles with
  | nil => rfl
  | cons lf rest ih =>
    rw [List.filterMap_cons]
    cases lf with
    | none => exact ih
    | some lockFile =>
      simp only
      by_cases h1 : lockFile.pid = 0 ∨ lockFile.workspaceFolders = []
      · rw [if_pos h1]
        exact ih
      · rw [if_neg h1]
        by_cases h2 : !alive lockFile.pid
        · rw [if_pos h2]
          exact ih
        · rw [if_neg h2]
          cases hws : lockFile.workspaceFolders with
          | nil => exact ih
          | cons w ws => exact ih

theorem discoverCLISessions_seen_spec :
    ∀ (entries : List PsEntry) (cwdMap : Int → Option String) (seen : List String),
      (∀ t ∈ discoverCLISessions entries cwdMap seen, t.cwd ∉ seen) ∧
      ((discoverCLISessions entries cwdMap seen).map (fun s => s.cwd)).Nodup := by
  intro entries
  induction entries with
  | nil => exact fun _ _ => ⟨fun t ht => absurd ht (by simp [discoverCLISessions]), by
      simp [discoverCLISessions]⟩
  | cons entry rest ih =>
    intro cwdMap seen
    unfold discoverCLISessions
    by_cases h1 : entry.tty = ("??").data
    · rw [if_pos h1]
      exact ih cwdMap seen
    · rw [if_neg h1]
      cases hfields : goFields entry.command with
      | nil => exact ih cwdMap seen
      | cons c0 crest =>
        simp only
        by_cases h2 : !(filepathBase c0 = ("claude").data)
        · rw [if_pos h2]
          exact ih cwdMap seen
        · rw [if_neg h2]
          cases hcwd : cwdMap entry.pid with
          | none => exact ih cwdMap seen
          | some cwd =>
            simp only
            by_cases h3 : cwd = ""
            · rw [if_pos h3]
              exact ih cwdMap seen
            · rw [if_neg h3]
              by_cases h4 : seen.contains cwd
              · rw [if_pos h4]
                exact ih cwdMap seen
              · rw [if_neg h4]
                obtain ⟨ihmem, ihnodup⟩ := ih cwdMap (cwd :: seen)
                constructor
                · intro t ht
                  rcases List.mem_cons.mp ht with rfl | ht2
                  · simpa using fun hmem => h4 (List.elem_eq_true_of_mem hmem)
                  · intro hmem
                    exact (ihmem t ht2) (List.mem_cons_of_mem _ hmem)
                · rw [List.map_cons]
                  refine List.nodup_cons.mpr ⟨?_, ihnodup⟩
                  intro hmem
                  obtain ⟨t, ht, hteq⟩ := List.mem_map.mp hmem
                  exact (ihmem t ht) (by rw [hteq]; exact List.mem_cons_self _ _)


/-- C2: if IDE discovery yields exactly one session claiming working
directory `w`, the fused list contains exactly that IDE-sourced session
for `w`, and CLI discovery yields no session for `w` at all — every CLI
candidate with that resolved CWD is skipped by the seen-set, so the
session's source is the (shortened) IDE name and never comes from CLI
discovery. -/
theorem DiscoverAll_ide_wins (psOutput : List Char) (cwdMap : Int → Option String)
    (lockFiles : List (Option IdeLockFile)) (alive : Int → Bool) (w : String) (s : Session)
    (hide : (discoverIDESessions lockFiles alive (ParsePS psOutput) cwdMap).filter
        (fun t => t.cwd == w) = [s]) :
    (DiscoverAll psOutput cwdMap lockFiles alive).filter (fun t => t.cwd == w) = [s] ∧
    ∀ t ∈ discoverCLISessions (ParsePS psOutput) cwdMap
        ((discoverIDESessions lockFiles alive (ParsePS psOutput) cwdMap).map
          (fun u => u.cwd)),
      t.cwd ≠ w := by
  have hsmem : s ∈ (discoverIDESessions lockFiles alive (ParsePS psOutput) cwdMap).filter
      (fun t => t.cwd == w) := by
    rw [hide]
    exact List.mem_singleton.mpr rfl
  have h1 := List.mem_filter.mp hsmem
  have hw : s.cwd = w := by simpa using h1.2
  have hcli : ∀ t ∈ discoverCLISessions (ParsePS psOutput) cwdMap
      ((discoverIDESessions lockFiles alive (ParsePS psOutput) cwdMap).map
        (fun u => u.cwd)),
      t.cwd ≠ w := by
    intro t ht heq
    have hnot := (discoverCLISessions_seen_spec (ParsePS psOutput) cwdMap
      ((discoverIDESessions lockFiles alive (ParsePS psOutput) cwdMap).map
        (fun u => u.cwd))).1 t ht
    exact hnot (by
      rw [heq]
      exact List.mem_map.mpr ⟨s, h1.1, hw⟩)
  refine ⟨?_, hcli⟩
  unfold DiscoverAll
  by_cases hemp : (ParsePS psOutput).isEmpty = true
  · exfalso
    have hnil : ParsePS psOutput = [] := by simpa using hemp
    rw [hnil, discoverIDESessions_nil] at hide
    simp at hide
  · rw [if_neg hemp, List.filter_append, hide]
    have hnil : (discoverCLISessions (ParsePS psOutput) cwdMap
        ((discoverIDESessions lockFiles alive (ParsePS psOutput) cwdMap).map
          (fun u => u.cwd))).filter (fun t => t.cwd == w) = [] := by
      rw [List.filter_eq_nil_iff]
      intro t ht
      simpa using hcli t ht
    rw [hnil]
    simp

/-- Ps text for the C2 witness: one IDE-launched and one terminal claude. -/
def c2Ps : List Char := ("3 1:00 ?? claude\n4 0:10 ttys001 claude\n").data

/-- CWD oracle for the C2 witness: both processes run in "/a". -/
def c2CwdMap : Int → Option String := fun p => if p = 3 ∨ p = 4 then some "/a" else none

/-- Lock file for the C2 witness. -/
def c2Lock : Option IdeLockFile :=
  some { pid := 9, workspaceFolders := ["/a"], ideName := "Visual Studio Code - Insiders",
         transport := "ws" }

/-- The session the C2 witness expects: the IDE one. -/
def c2IdeSession : Session :=
  { pid := 3, cwd := "/a", state := State.active, source := { type := "VSCode" },
    project := ('a' :: []), topic := [], branch := "", duration := 60000000000,
    messages := 0 }

/-- Witness for C2: with an IDE session and a CLI candidate both in "/a",
fusion keeps exactly the IDE session. -/
theorem DiscoverAll_ide_wins_witness :
    (DiscoverAll c2Ps c2CwdMap [c2Lock] (fun _ => true)).filter
      (fun t => t.cwd == "/a") = [c2IdeSession] :=
  (DiscoverAll_ide_wins c2Ps c2CwdMap [c2Lock] (fun _ => true) "/a" c2IdeSession
    (by decide)).1

/-- C4 (amended): CLI-discovered sessions have pairwise-distinct working
directories and none collides with an IDE-claimed one, and the fused list
is exactly IDE-then-CLI; but working directory is NOT a unique key of the
whole list: IDE discovery does not deduplicate against itself (see
`DiscoverAll_counterexample`). -/
theorem DiscoverAll_cwd_dedup (psOutput : List Char) (cwdMap : Int → Option String)
    (lockFiles : List (Option IdeLockFile)) (alive : Int → Bool) :
    ((discoverCLISessions (ParsePS psOutput) cwdMap
        ((discoverIDESessions lockFiles alive (ParsePS psOutput) cwdMap).map
          (fun s => s.cwd))).map (fun s => s.cwd)).Nodup ∧
    (∀ t ∈ discoverCLISessions (ParsePS psOutput) cwdMap
        ((discoverIDESessions lockFiles alive (ParsePS psOutput) cwdMap).map
          (fun s => s.cwd)),
      t.cwd ∉ (discoverIDESessions lockFiles alive (ParsePS psOutput) cwdMap).map
          (fun s => s.cwd)) ∧
    ((ParsePS psOutput).isEmpty = false →
      DiscoverAll psOutput cwdMap lockFiles alive
        = discoverIDESessions lockFiles alive (ParsePS psOutput) cwdMap
          ++ discoverCLISessions (ParsePS psOutput) cwdMap
              ((discoverIDESessions lockFiles alive (ParsePS psOutput) cwdMap).map
                (fun s => s.cwd))) := by
  refine ⟨(discoverCLISessions_seen_spec (ParsePS psOutput) cwdMap _).2,
    (discoverCLISessions_seen_spec (ParsePS psOutput) cwdMap _).1, ?_⟩
  intro h
  unfold DiscoverAll
  rw [if_neg (by simp [h])]

/-- Witness for C4 (amended) at the C2 scenario inputs. -/
theorem DiscoverAll_cwd_dedup_witness :
    DiscoverAll c2Ps c2CwdMap [c2Lock] (fun _ => true)
      = discoverIDESessions [c2Lock] (fun _ => true) (ParsePS c2Ps) c2CwdMap
        ++ discoverCLISessions (ParsePS c2Ps) c2CwdMap
            ((discoverIDESessions [c2Lock] (fun _ => true) (ParsePS c2Ps) c2CwdMap).map
              (fun s => s.cwd)) :=
  (DiscoverAll_cwd_dedup c2Ps c2CwdMap [c2Lock] (fun _ => true)).2.2 (by decide)

/-- Ps text for the C4 counterexample: one IDE-launched claude. -/
def c4Ps : List Char := ("3 1:00 ?? claude\n").data

/-- CWD oracle for the C4 counterexample. -/
def c4CwdMap : Int → Option String := fun p => if p = 3 then some "/a" else none

/-- First live lock file claiming workspace "/a". -/
def c4Lock1 : Option IdeLockFile :=
  some { pid := 8, workspaceFolders := ["/a"], ideName := "Cursor", transport := "ws" }

/-- Second live lock file claiming the identical workspace "/a". -/
def c4Lock2 : Option IdeLockFile :=
  some { pid := 9, workspaceFolders := ["/a"], ideName := "Cursor", transport := "ws" }

/-- C4 counterexample: two live lock files whose first workspace folders
are the identical path yield TWO sessions for that path, so CWD is not a
unique key of the fused list. -/
theorem DiscoverAll_counterexample :
    ((DiscoverAll c4Ps c4CwdMap [c4Lock1, c4Lock2] (fun _ => true)).map
      (fun s => s.cwd)) = ["/a", "/a"] ∧
    ¬ ((DiscoverAll c4Ps c4CwdMap [c4Lock1, c4Lock2] (fun _ => true)).map
      (fun s => s.cwd)).Nodup :=
  ⟨by decide, by decide⟩


/-- No two adjacent spaces. -/
def noDoubleSpace : List Char → Bool
  | a :: b :: rest => !(a == ' ' && b == ' ') && noDoubleSpace (b :: rest)
  | _ => true

theorem noDoubleSpace_cons {c : Char} {t : List Char}
    (h : noDoubleSpace (c :: t) = true) : noDoubleSpace t = true := by
  cases t with
  | nil => rfl
  | cons b r =>
    simp only [noDoubleSpace, Bool.and_eq_true] at h
    exact h.2

theorem noDoubleSpace_suffix : ∀ {a b : List Char},
    noDoubleSpace (a ++ b) = true → noDoubleSpace b = true := by
  intro a
  induction a with
  | nil => exact fun h => h
  | cons x xs ih => exact fun h => ih (noDoubleSpace_cons h)

theorem fieldsAux_cons_nonspace {c : Char} (h : goIsSpace c = false)
    (l acc : List Char) : fieldsAux (c :: l) acc = fieldsAux l (c :: acc) := by
  simp only [fieldsAux, h]
  simp

theorem fieldsAux_word : ∀ (w rest acc : List Char),
    (∀ c ∈ w, goIsSpace c = false) →
    fieldsAux (w ++ rest) acc = fieldsAux rest (w.reverse ++ acc) := by
  intro w
  induction w with
  | nil => intro rest acc _; rfl
  | cons c w2 ih =>
    intro rest acc hw
    have hc : goIsSpace c = false := hw c (by simp)
    rw [List.cons_append, fieldsAux_cons_nonspace hc,
      ih rest (c :: acc) (fun d hd => hw d (by simp [hd]))]
    congr 1
    rw [List.reverse_cons, List.append_assoc]
    rfl

theorem fieldsAux_space_acc {rest acc : List Char} (h : ¬ acc = []) :
    fieldsAux (' ' :: rest) acc = acc.reverse :: fieldsAux rest [] := by
  simp only [fieldsAux, show goIsSpace ' ' = true from rfl, if_true]
  rw [if_neg (by simpa using h)]

theorem fieldsAux_nil_acc {acc : List Char} (h : ¬ acc = []) :
    fieldsAux [] acc = [acc.reverse] := by
  simp only [fieldsAux]
  rw [if_neg (by simpa using h)]

theorem fieldsAux_ne_nil : ∀ (l acc : List Char), ¬ acc = [] → fieldsAux l acc ≠ [] := by
  intro l
  induction l with
  | nil => intro acc h; rw [fieldsAux_nil_acc h]; simp
  | cons c rest ih =>
    intro acc h
    by_cases hc : goIsSpace c = true
    · simp only [fieldsAux, hc, if_true]
      rw [if_neg (by simpa using h)]
      simp
    · rw [fieldsAux_cons_nonspace (by simpa using hc)]
      exact ih (c :: acc) (by simp)

theorem dropWhile_head_fails {p : Char → Bool} : ∀ {l c : List Char} {x : Char},
    l.dropWhile p = x :: c → p x = false := by
  intro l
  induction l with
  | nil => intro c x h; cases h
  | cons y ys ih =>
    intro c x h
    by_cases hy : p y = true
    · rw [List.dropWhile_cons_of_pos hy] at h
      exact ih h
    · rw [List.dropWhile_cons_of_neg hy] at h
      cases h
      simpa using hy

theorem joinFields_id : ∀ (n : Nat) (s : List Char), s.length ≤ n →
    (∀ c ∈ s, c = ' ' ∨ goIsSpace c = false) →
    s.head? ≠ some ' ' → s.getLast? ≠ some ' ' → noDoubleSpace s = true →
    joinWith [ ' ' ] (goFields s) = s := by
  intro n
  induction n with
  | zero =>
    intro s hlen _ _ _ _
    have : s = [] := List.length_eq_zero.mp (Nat.le_zero.mp hlen)
    subst this
    rfl
  | succ n ih =>
    intro s hlen hall hhead hlast hnd
    cases hs : s with
    | nil => rfl
    | cons c0 s1 =>
      subst hs
      have hc0 : goIsSpace c0 = false := by
        rcases hall c0 (by simp) with h | h
        · exact absurd (by rw [h]; rfl) hhead
        · exact h
      have hwr : (c0 :: s1).takeWhile (fun c => !goIsSpace c)
          ++ (c0 :: s1).dropWhile (fun c => !goIsSpace c) = c0 :: s1 :=
        List.takeWhile_append_dropWhile _ _
      set w := (c0 :: s1).takeWhile (fun c => !goIsSpace c) with hw
      set r := (c0 :: s1).dropWhile (fun c => !goIsSpace c) with hr
      have hwne : w ≠ [] := by
        rw [hw, List.takeWhile_cons_of_pos (by simp [hc0])]
        simp
      have hwall : ∀ c ∈ w, goIsSpace c = false := by
        intro c hc
        have := List.mem_takeWhile_imp (hw ▸ hc)
        simpa using this
      cases hrc : r with
      | nil =>
        rw [hrc, List.append_nil] at hwr
        rw [← hwr]
        unfold goFields
        rw [show (w : List Char) = w ++ [] by simp, fieldsAux_word w [] [] hwall,
          List.append_nil,
          fieldsAux_nil_acc (fun h => hwne (by simpa using congrArg List.reverse h)),
          List.reverse_reverse]
        simp [joinWith]
      | cons csp r2 =>
        have hcsp : csp = ' ' := by
          have hsp : goIsSpace csp = true := by
            have := dropWhile_head_fails (p := fun c => !goIsSpace c) (hr ▸ hrc)
            simpa using this
          have hmem : csp ∈ c0 :: s1 := by
            rw [← hwr, hrc]
            simp
          rcases hall csp hmem with h | h
          · exact h
          · rw [h] at hsp
            cases hsp
        subst hcsp
        cases hr2 : r2 with
        | nil =>
          exfalso
          apply hlast
          rw [hrc, hr2] at hwr
          rw [← hwr]
          exact List.getLast?_concat w
        | cons c2 r3 =>
          subst hr2
          rw [hrc] at hwr
          have hs_eq : c0 :: s1 = w ++ ' ' :: c2 :: r3 := hwr.symm
          have hnd2 : noDoubleSpace (' ' :: c2 :: r3) = true :=
            noDoubleSpace_suffix (a := w) (by rw [← hs_eq]; exact hnd)
          have hc2ne : ¬ c2 = ' ' := by
            intro hcc
            subst hcc
            simp [noDoubleSpace] at hnd2
          have hc2 : goIsSpace c2 = false := by
            rcases hall c2 (by rw [hs_eq]; simp) with h | h
            · exact absurd h hc2ne
            · exact h
          have hlen2 : (c2 :: r3).length ≤ n := by
            have h1 : (c0 :: s1).length = w.length + (' ' :: c2 :: r3).length := by
              rw [hs_eq, List.length_append]
            have h2 : 1 ≤ w.length := by
              cases hwx : w with
              | nil => exact absurd hwx hwne
              | cons a b => simp
            simp only [List.length_cons] at h1 hlen ⊢
            omega
          have hall2 : ∀ c ∈ c2 :: r3, c = ' ' ∨ goIsSpace c = false := by
            intro c hc
            exact hall c (by rw [hs_eq]; simp [hc])
          have hhead2 : (c2 :: r3).head? ≠ some ' ' := by
            simpa using hc2ne
          have hlast2 : (c2 :: r3).getLast? ≠ some ' ' := by
            intro hl
            apply hlast
            rw [hs_eq, List.getLast?_append,
              show (' ' :: c2 :: r3).getLast? = (c2 :: r3).getLast? from rfl, hl]
            rfl
          have hnd3 : noDoubleSpace (c2 :: r3) = true := noDoubleSpace_cons hnd2
          have hih := ih (c2 :: r3) hlen2 hall2 hhead2 hlast2 hnd3
          unfold goFields at hih ⊢
          rw [hs_eq, fieldsAux_word w (' ' :: c2 :: r3) [] hwall, List.append_nil,
            fieldsAux_space_acc (fun h => hwne (by simpa using congrArg List.reverse h)),
            List.reverse_reverse]
          have hne2 : fieldsAux (c2 :: r3) [] ≠ [] := by
            rw [fieldsAux_cons_nonspace hc2]
            exact fieldsAux_ne_nil r3 [c2] (by simp)
          cases hg : fieldsAux (c2 :: r3) [] with
          | nil => exact absurd hg hne2
          | cons g gs =>
            rw [hg] at hih
            simp only [joinWith]
            rw [hih]
            simp


theorem replaceTags_id : ∀ (fuel : Nat) (s : List Char), s.length ≤ fuel →
    containsTag s = false → replaceTags fuel s = s := by
  intro fuel
  induction fuel with
  | zero => intro s _ _; rfl
  | succ fuel ih =>
    intro s hlen hct
    cases s with
    | nil => rfl
    | cons c rest =>
      simp only [containsTag, Bool.or_eq_false_iff] at hct
      obtain ⟨h1, h2⟩ := hct
      have hrest : rest.length ≤ fuel := by
        simp only [List.length_cons] at hlen
        omega
      simp only [replaceTags]
      by_cases hc : c = '<'
      · subst hc
        rw [if_pos rfl] at h1
        rw [if_pos rfl]
        have hft : findTagEnd rest = none := by
          cases hx : findTagEnd rest with
          | none => rfl
          | some r2 =>
            rw [hx] at h1
            cases h1
        rw [hft, ih rest hrest h2]
      · rw [if_neg hc, ih rest hrest h2]

theorem noiseReplace_mid_id : ∀ (fuel : Nat) (s : List Char), s.length ≤ fuel →
    (∀ c ∈ s, ¬ c = '\n') → noiseReplace fuel false s = s := by
  intro fuel
  induction fuel with
  | zero => intro s _ _; rfl
  | succ fuel ih =>
    intro s hlen hnl
    cases s with
    | nil => rfl
    | cons c rest =>
      simp only [noiseReplace]
      have hc : (c == '\n') = false := by simpa using hnl c (by simp)
      rw [hc, ih rest (by simp only [List.length_cons] at hlen; omega)
        (fun d hd => hnl d (by simp [hd]))]

theorem noiseReplace_start_id (fuel : Nat) (s : List Char) (hlen : s.length ≤ fuel)
    (hm : noiseMatch s = none) (hnl : ∀ c ∈ s, ¬ c = '\n') :
    noiseReplace fuel true s = s := by
  cases fuel with
  | zero => rfl
  | succ fuel =>
    cases s with
    | nil => simp only [noiseReplace, hm]
    | cons c rest =>
      simp only [noiseReplace, hm]
      have hc : (c == '\n') = false := by simpa using hnl c (by simp)
      rw [hc, noiseReplace_mid_id fuel rest
        (by simp only [List.length_cons] at hlen; omega)
        (fun d hd => hnl d (by simp [hd]))]

theorem scanToGt_append : ∀ {a : List Char} (b : List Char), '>' ∉ a →
    scanToGt (a ++ '>' :: b) = some b := by
  intro a
  induction a with
  | nil => intro b _; simp [scanToGt]
  | cons x xs ih =>
    intro b h
    simp only [List.mem_cons, not_or] at h
    simp only [List.cons_append, scanToGt]
    rw [if_neg (fun hh => h.1 hh.symm)]
    exact ih b h.2

theorem containsTag_of_tag (mid t : List Char) (hne : mid ≠ []) (hgt : '>' ∉ mid) :
    containsTag ('<' :: (mid ++ '>' :: t)) = true := by
  cases mid with
  | nil => exact absurd rfl hne
  | cons m0 mrest =>
    simp only [List.mem_cons, not_or] at hgt
    simp only [containsTag, List.cons_append]
    have hft : findTagEnd (m0 :: (mrest ++ '>' :: t)) = some t := by
      simp only [findTagEnd]
      rw [if_neg (fun hh => hgt.1 hh.symm)]
      exact scanToGt_append t hgt.2
    simp [hft]

theorem ideSelection_not_prefix {s : List Char} (h : containsTag s = false) :
    (("<ide_selection>").data).isPrefixOf s = false := by
  cases hp : (("<ide_selection>").data).isPrefixOf s with
  | false => rfl
  | true =>
    exfalso
    obtain ⟨t, ht⟩ := List.isPrefixOf_iff_prefix.mp hp
    have heq : (("<ide_selection>").data) ++ t
        = '<' :: ((("ide_selection").data) ++ '>' :: t) := rfl
    have htag := containsTag_of_tag (("ide_selection").data) t (by decide) (by decide)
    rw [← heq, ht, h] at htag
    cases htag

theorem ideOpenedFile_not_prefix {s : List Char} (h : containsTag s = false) :
    (("<ide_opened_file>").data).isPrefixOf s = false := by
  cases hp : (("<ide_opened_file>").data).isPrefixOf s with
  | false => rfl
  | true =>
    exfalso
    obtain ⟨t, ht⟩ := List.isPrefixOf_iff_prefix.mp hp
    have heq : (("<ide_opened_file>").data) ++ t
        = '<' :: ((("ide_opened_file").data) ++ '>' :: t) := rfl
    have htag := containsTag_of_tag (("ide_opened_file").data) t (by decide) (by decide)
    rw [← heq, ht, h] at htag
    cases htag


/-- C8 (amended): `CleanTopic` returns already-clean input unchanged when,
beyond the claim's conditions (no angle-bracket tags, no recognised noise
prefix, no whitespace runs beyond single spaces), the string also has no
leading or trailing space and all its whitespace is the plain space rune;
and it produces exactly the three documented placeholders for the
IDE-wrapper edge cases.  (The original claim without the no-boundary-space
condition is refuted by `CleanTopic_counterexample`.) -/
theorem CleanTopic_spec :
    (∀ s : List Char, containsTag s = false → noiseMatch s = none →
      (∀ c ∈ s, c = ' ' ∨ goIsSpace c = false) →
      s.head? ≠ some ' ' → s.getLast? ≠ some ' ' → noDoubleSpace s = true →
      CleanTopic s = s) ∧
    CleanTopic (("<ide_selection></ide_selection>").data) = ("(IDE selection)").data ∧
    CleanTopic (("<ide_opened_file>User opened the file /Users/me/project/main.go in the IDE</ide_opened_file>").data)
      = ("(opened main.go)").data ∧
    CleanTopic (("<ide_opened_file>something else</ide_opened_file>").data)
      = ("(IDE context)").data := by
  refine ⟨?_, by decide, by decide, by decide⟩
  intro s hct hnm hall hhead hlast hnd
  by_cases hnil : s = []
  · subst hnil
    rfl
  · have hne : s.isEmpty = false := by
      cases s with
      | nil => exact absurd rfl hnil
      | cons a b => rfl
    have hpre1 := ideSelection_not_prefix hct
    have hpre2 := ideOpenedFile_not_prefix hct
    have hs1 : stripIDESelectionTag s = (s, false) := by
      simp [stripIDESelectionTag, hpre1]
    have hs2 : stripIDEOpenedFileTag s = ([], false) := by
      simp [stripIDEOpenedFileTag, hpre2]
    have hnonl : ∀ c ∈ s, ¬ c = '\n' := by
      intro c hc hcc
      subst hcc
      rcases hall _ hc with h | h
      · exact absurd h (by decide)
      · exact absurd h (by decide)
    have h1 : replaceTags s.length s = s := replaceTags_id s.length s le_rfl hct
    have h2 : noiseReplace s.length true s = s :=
      noiseReplace_start_id s.length s le_rfl hnm hnonl
    have hclean : stripXMLAndNoise s = s := by
      simp only [stripXMLAndNoise, h1, h2]
      exact joinFields_id s.length s le_rfl hall hhead hlast hnd
    simp only [CleanTopic, hne, hs1, hs2, Bool.false_eq_true, if_false,
      Bool.false_and]
    exact hclean

/-- Witness for C8 at a clean prompt. -/
theorem CleanTopic_spec_witness :
    CleanTopic (("Fix the bug").data) = ("Fix the bug").data :=
  CleanTopic_spec.1 (("Fix the bug").data) (by decide) (by decide) (by decide)
    (by decide) (by decide) (by decide)

/-- C8 counterexample: " a" meets the claim's cleanliness conditions (no
angle-bracket tags, no recognised noise prefix, whitespace only as single
spaces) yet `CleanTopic` collapses the leading space. -/
theorem CleanTopic_counterexample :
    containsTag ((" a").data) = false ∧ noiseMatch ((" a").data) = none ∧
    ((" a").data).all (fun c => c == ' ' || !goIsSpace c) = true ∧
    noDoubleSpace ((" a").data) = true ∧
    CleanTopic ((" a").data) = ("a").data ∧
    CleanTopic ((" a").data) ≠ (" a").data := by
  refine ⟨by decide, by decide, by decide, by decide, by decide, by decide⟩

end Cctop
